import Mathlib

/-!
# Verification of the hidden-character detector core

Shallow embedding of the scanning core of the `hidden-character-detector`
repository: `src/core/hiddenCharacters.ts` (the category registry) and
`src/core/detector.ts` (the single-pass scanner `detectHiddenCharacters`).

Modelling conventions:

* A JavaScript string is a sequence of UTF-16 code units; we model it as
  `List Nat`, reading each unit through `unitAt`, which truncates with an
  explicit `% 65536` exactly as the 16-bit unit domain does.
* `String.prototype.codePointAt` is `codePointAtD`: it combines a high
  surrogate followed by a low surrogate into the supplementary-plane scalar
  value and otherwise returns the unit itself.  Inside the scanner's main
  loop the index is always in bounds, so the source's `!== undefined`
  guards are vacuous and are dropped.
* The two Unicode-property regular expressions of the source,
  `/\p{C}|\p{Z}/u` (control-or-separator) and
  `/\p{Emoji}|\p{Emoji_Modifier_Base}/u` (emoji component), query the
  platform's Unicode tables.  They are modelled as boolean oracle
  parameters `pCorZ` and `pEmoji` of the scanner; theorems that depend on a
  concrete fact of the real tables (only that U+0000 is a control character
  and carries no emoji property) take that fact as a hypothesis.
* JavaScript `while` loops become structural recursion on a fuel argument;
  the top-level entry point supplies fuel `t.length`, which is proved
  sufficient (the cursor strictly advances every iteration).
* Truthiness tests `if (x)` on a possibly-zero code point are embedded as
  explicit `≠ 0` tests.
-/

/-! ## UTF-16 units and code points -/

/-- One UTF-16 code unit of the input, read at position `i`; out-of-range
reads yield 0 (they are never reached by the scanner) and the unit domain
is enforced by an explicit `% 65536`. -/
def unitAt (t : List Nat) (i : Nat) : Nat := t.getD i 0 % 65536

/-- High (leading) surrogate test, `0xD800 ≤ c ≤ 0xDBFF`. -/
def isHighSurrogate (c : Nat) : Bool := 0xD800 ≤ c && c ≤ 0xDBFF

/-- Low (trailing) surrogate test, `0xDC00 ≤ c ≤ 0xDFFF`. -/
def isLowSurrogate (c : Nat) : Bool := 0xDC00 ≤ c && c ≤ 0xDFFF

/-- `text.codePointAt(i)`: the scalar value starting at unit `i`, combining
a surrogate pair when one starts there. -/
def codePointAtD (t : List Nat) (i : Nat) : Nat :=
  if isHighSurrogate (unitAt t i) then
    (if isLowSurrogate (unitAt t (i + 1)) then
      0x10000 + (unitAt t i - 0xD800) * 0x400 + (unitAt t (i + 1) - 0xDC00)
    else unitAt t i)
  else unitAt t i

/-! ## The category registry (`src/core/hiddenCharacters.ts`)

Every key of the source's sets and of the combined `allHiddenChars` map is a
one-code-point string, so membership of the string `startCharToCheck` is
membership of its scalar value; the two large range-built sets are embedded
as the range tests that built them. -/

def ZERO_WIDTH_CATEGORY : String := "Zero-Width"

def ZERO_WIDTH_MESSAGE : String :=
  "Zero-width character; invisible but can affect text processing."

def BIDI_CONTROL_CATEGORY : String := "Bidirectional Control"

def BIDI_CONTROL_MESSAGE : String :=
  "Bidirectional control character; can alter text display order, potentially obfuscating logic."

def DEPRECATED_TAG_CATEGORY : String := "Deprecated Tag"

def DEPRECATED_TAG_MESSAGE : String :=
  "Deprecated Unicode tag character; may be used for obfuscation."

def VARIATION_SELECTOR_CATEGORY : String := "Variation Selector"

def VARIATION_SELECTOR_MESSAGE : String :=
  "Variation selector; while sometimes legitimate, can be used in confusable character sequences."

/-- The value type of the `allHiddenChars` map. -/
structure HiddenInfo where
  category : String
  message : String
deriving DecidableEq

/-- Membership in the source's `zeroWidthChars` set. -/
def isZeroWidthChar (cp : Nat) : Bool :=
  cp == 0x200B || cp == 0x200C || cp == 0x200D || cp == 0xFEFF

/-- Membership in the source's `bidiControlChars` set. -/
def isBidiControlChar (cp : Nat) : Bool :=
  cp == 0x202A || cp == 0x202B || cp == 0x202D || cp == 0x202E ||
  cp == 0x2066 || cp == 0x2067 || cp == 0x2068 || cp == 0x2069 || cp == 0x202C

/-- Membership in the source's `deprecatedTagChars` set (built by the loop
over `0xE0000 .. 0xE007F`). -/
def isDeprecatedTagChar (cp : Nat) : Bool :=
  0xE0000 ≤ cp && cp ≤ 0xE007F

/-- Membership in the source's `variationSelectors` set (VS1–VS16 and
VS17–VS256, built by the two range loops). -/
def isVariationSelector (cp : Nat) : Bool :=
  (0xFE00 ≤ cp && cp ≤ 0xFE0F) || (0xE0100 ≤ cp && cp ≤ 0xE01EF)

/-- `allHiddenChars.get`: the four membership sets are pairwise disjoint, so
the map lookup is this test chain. -/
def allHiddenCharsGet (cp : Nat) : Option HiddenInfo :=
  if isZeroWidthChar cp then some ⟨ZERO_WIDTH_CATEGORY, ZERO_WIDTH_MESSAGE⟩
  else if isBidiControlChar cp then some ⟨BIDI_CONTROL_CATEGORY, BIDI_CONTROL_MESSAGE⟩
  else if isDeprecatedTagChar cp then some ⟨DEPRECATED_TAG_CATEGORY, DEPRECATED_TAG_MESSAGE⟩
  else if isVariationSelector cp then
    some ⟨VARIATION_SELECTOR_CATEGORY, VARIATION_SELECTOR_MESSAGE⟩
  else none

/-! ## The binary-pattern alphabet (`src/core/detector.ts`) -/

/-- `BINARY_ENCODING_CHARS.has`: the six-element zero-width alphabet of the
run detector. -/
def isBinaryEncodingChar (cp : Nat) : Bool :=
  cp == 0x200B || cp == 0x200C || cp == 0x200D || cp == 0xFEFF ||
  cp == 0x2062 || cp == 0x2064

/-- `MIN_PATTERN_LENGTH`: minimum length for a run to be reported as a
pattern. -/
def MIN_PATTERN_LENGTH : Nat := 8

/-! ## The result record (`src/core/types.ts`)

`endIndex`/`endLine`/`endColumn` are optional in the source interface and
absent on single-character findings, hence `Option` here.  Columns are
differences of indices and are kept in `Int` exactly as JavaScript number
subtraction produces them. -/

/-- One finding, as produced by `detectHiddenCharacters`. -/
structure HiddenCharacterInfo where
  character : String
  codePoint : Int
  index : Nat
  line : Nat
  column : Int
  category : String
  message : String
  endIndex : Option Int
  endLine : Option Int
  endColumn : Option Int
deriving DecidableEq

/-! ## Hexadecimal display (`toString(16).toUpperCase().padStart(4, '0')`) -/

/-- One uppercase hexadecimal digit. -/
def hexDigitChar (n : Nat) : Char :=
  if n < 10 then Char.ofNat (48 + n) else Char.ofNat (55 + n)

/-- Digit accumulation for `natToHex`; the first argument is fuel, always
sufficient at `n + 1`. -/
def natToHexAux : Nat → Nat → List Char → List Char
  | 0, _, acc => acc
  | _ + 1, 0, acc => acc
  | f + 1, n + 1, acc =>
    natToHexAux f ((n + 1) / 16) (hexDigitChar ((n + 1) % 16) :: acc)

/-- Uppercase hexadecimal rendering of a code point. -/
def natToHex (n : Nat) : String :=
  if n = 0 then "0" else String.mk (natToHexAux (n + 1) n [])

/-- `padStart(4, '0')`. -/
def padStart4 (s : String) : String :=
  String.mk (List.replicate (4 - s.length) '0') ++ s

/-! ## `lastIndexOf('\n', e)` -/

/-- Backwards newline search from position `e` inclusive; `none` models the
source's `-1`. -/
def lastNL (t : List Nat) : Nat → Option Nat
  | 0 => if unitAt t 0 = 10 then some 0 else none
  | e + 1 => if unitAt t (e + 1) = 10 then some (e + 1) else lastNL t e

/-- The `(x === -1) ? 0 : x + 1` line-start resynchronisation after a
pattern. -/
def lastNLStart (t : List Nat) (e : Nat) : Nat :=
  match lastNL t e with
  | none => 0
  | some j => j + 1

/-! ## The run-extension loop (detector.ts lines 46–76)

The loop's local variables become a state record; `patternEndIndex`,
`patternEndLine` and `patternEndColumn` are `Int` because the source
initialises them to `-1`. -/

/-- State of the inner pattern loop. -/
structure PatternState where
  patternI : Nat
  patternLength : Nat
  patternEndIndex : Int
  patternEndLine : Int
  patternEndColumn : Int
  currentPatternLine : Nat
  currentPatternLineStartIndex : Nat
deriving DecidableEq

/-- The inner `while (patternI < text.length)` loop.  A newline is not in
the alphabet, so the newline branch inside it is dead in practice, but it
is embedded as written. -/
def patternLoopF (t : List Nat) : Nat → PatternState → PatternState
  | 0, ps => ps
  | fuel + 1, ps =>
    if ps.patternI < t.length then
      if isBinaryEncodingChar (codePointAtD t ps.patternI) then
        patternLoopF t fuel
          { patternI :=
              ps.patternI + (if 0xFFFF < codePointAtD t ps.patternI then 2 else 1)
            patternLength := ps.patternLength + 1
            patternEndIndex := (ps.patternI : Int)
            patternEndLine := (ps.currentPatternLine : Int)
            patternEndColumn :=
              (ps.patternI : Int) - (ps.currentPatternLineStartIndex : Int)
            currentPatternLine :=
              if unitAt t ps.patternI = 10 then ps.currentPatternLine + 1
              else ps.currentPatternLine
            currentPatternLineStartIndex :=
              if unitAt t ps.patternI = 10 then ps.patternI + 1
              else ps.currentPatternLineStartIndex }
      else ps
    else ps

/-- The pattern-scan state produced at main-loop position `i` (lines
45–76): the inner loop runs only when the current code point is in the
alphabet, otherwise the initial state (length 0) falls through. -/
def mainRunState (t : List Nat) (i line clsi : Nat) : PatternState :=
  if isBinaryEncodingChar (codePointAtD t i) then
    patternLoopF t (t.length - i) ⟨i, 0, -1, -1, -1, line, clsi⟩
  else ⟨i, 0, -1, -1, -1, line, clsi⟩

/-- The pattern finding pushed at lines 80–91. -/
def patternFinding (t : List Nat) (i line clsi : Nat) : HiddenCharacterInfo :=
  { character :=
      "[Binary Pattern (" ++ toString (mainRunState t i line clsi).patternLength
        ++ " chars)]"
    codePoint := -1
    index := i
    line := line
    column := (i : Int) - (clsi : Int)
    category := "BinaryEncodingPattern"
    message :=
      "Potential binary encoding detected using a sequence of "
        ++ toString (mainRunState t i line clsi).patternLength
        ++ " zero-width characters."
    endIndex := some (mainRunState t i line clsi).patternEndIndex
    endLine := some (mainRunState t i line clsi).patternEndLine
    endColumn := some (mainRunState t i line clsi).patternEndColumn }

/-! ## Previous-base-character search (detector.ts lines 139–166) -/

/-- Step 2 of `getPreviousBaseCharStartIndex`: move from a low surrogate to
the high surrogate that starts its pair. -/
def prevBaseStep2 (t : List Nat) (r : Nat) : Int :=
  if isLowSurrogate (unitAt t r) && decide (0 < r) && isHighSurrogate (unitAt t (r - 1))
  then (r : Int) - 1
  else (r : Int)

/-- `getPreviousBaseCharStartIndex`: index of the start of the character
before `index`, skipping one preceding VS16 and surrogate continuation;
`-1` when there is none. -/
def getPreviousBaseCharStartIndex (t : List Nat) (index : Nat) : Int :=
  if index = 0 then -1
  else if codePointAtD t (index - 1) = 0xFE0F then
    (if index - 1 = 0 then -1 else prevBaseStep2 t (index - 1 - 1))
  else prevBaseStep2 t (index - 1)

/-! ## Suppression heuristics (detector.ts lines 169–216)

`pCorZ cp` models `/\p{C}|\p{Z}/u.test(String.fromCodePoint(cp))` and
`pEmoji cp` models `/\p{Emoji}|\p{Emoji_Modifier_Base}/u.test(...)`; the
source's truthiness guards `if (prevCodePoint)` / `if (nextCodePoint)` are
the explicit `!= 0` tests. -/

/-- The VS16 heuristic: skip when the previous base character exists, is a
nonzero code point and is not control-or-separator. -/
def vs16Skip (pCorZ : Nat → Bool) (t : List Nat) (i : Nat) : Bool :=
  if getPreviousBaseCharStartIndex t i != -1 then
    (if codePointAtD t (getPreviousBaseCharStartIndex t i).toNat != 0 then
      !(pCorZ (codePointAtD t (getPreviousBaseCharStartIndex t i).toNat))
    else false)
  else false

/-- `precededByEmojiComponent` of the ZWJ heuristic. -/
def zwjPreceded (pEmoji : Nat → Bool) (t : List Nat) (i : Nat) : Bool :=
  if getPreviousBaseCharStartIndex t i != -1 then
    (if codePointAtD t (getPreviousBaseCharStartIndex t i).toNat != 0 then
      pEmoji (codePointAtD t (getPreviousBaseCharStartIndex t i).toNat)
    else false)
  else false

/-- `succeededByPotentialComponent` of the ZWJ heuristic (the ZWJ is never
a surrogate, so the next character is at `i + 1`). -/
def zwjSucceeded (pCorZ : Nat → Bool) (t : List Nat) (i : Nat) : Bool :=
  if i + 1 < t.length then
    (if codePointAtD t (i + 1) != 0 then
      (codePointAtD t (i + 1) == 0xFE0F) || !(pCorZ (codePointAtD t (i + 1)))
    else false)
  else false

/-- The ZWJ heuristic: skip only when joining from an emoji component and
followed by a potential component. -/
def zwjSkip (pCorZ pEmoji : Nat → Bool) (t : List Nat) (i : Nat) : Bool :=
  zwjPreceded pEmoji t i && zwjSucceeded pCorZ t i

/-- `skipDiagnostic` for the code point at `i` (false for everything except
VS16 and ZWJ). -/
def skipSingleDiagnostic (pCorZ pEmoji : Nat → Bool) (t : List Nat) (i : Nat) : Bool :=
  if codePointAtD t i == 0xFE0F then vs16Skip pCorZ t i
  else if codePointAtD t i == 0x200D then zwjSkip pCorZ pEmoji t i
  else false

/-! ## Single-character classification (detector.ts lines 104–232) -/

/-- The zero-or-one findings pushed by the single-character branch at
position `i`. -/
def singleCharStep (pCorZ pEmoji : Nat → Bool) (t : List Nat)
    (i line clsi : Nat) : List HiddenCharacterInfo :=
  match allHiddenCharsGet (codePointAtD t i) with
  | none => []
  | some hiddenInfo =>
    if skipSingleDiagnostic pCorZ pEmoji t i then []
    else
      [{ character := "U+" ++ padStart4 (natToHex (codePointAtD t i))
         codePoint := (codePointAtD t i : Int)
         index := i
         line := line
         column := (i : Int) - (clsi : Int)
         category := hiddenInfo.category
         message := hiddenInfo.message
         endIndex := none
         endLine := none
         endColumn := none }]

/-! ## The main scanning loop (detector.ts lines 29–249) -/

/-- The `while (i < text.length)` loop of `detectHiddenCharacters`;
arguments after the fuel are the cursor `i`, the one-based `line` and the
`currentLineStartIndex`. -/
def scanLoopF (pCorZ pEmoji : Nat → Bool) (t : List Nat) :
    Nat → Nat → Nat → Nat → List HiddenCharacterInfo
  | 0, _, _, _ => []
  | fuel + 1, i, line, clsi =>
    if i < t.length then
      if MIN_PATTERN_LENGTH ≤ (mainRunState t i line clsi).patternLength then
        patternFinding t i line clsi ::
          scanLoopF pCorZ pEmoji t fuel (i + (mainRunState t i line clsi).patternLength)
            (mainRunState t i line clsi).patternEndLine.toNat
            (lastNLStart t (mainRunState t i line clsi).patternEndIndex.toNat)
      else
        singleCharStep pCorZ pEmoji t i line clsi ++
          scanLoopF pCorZ pEmoji t fuel
            (i + (if 0xFFFF < codePointAtD t i then 2 else 1))
            (if unitAt t i = 10 then line + 1 else line)
            (if unitAt t i = 10 then i + 1 else clsi)
    else []

/-- `detectHiddenCharacters(text)`: initial state is line 1, column origin
0, cursor 0; fuel `t.length` is sufficient because the cursor strictly
advances every iteration. -/
def detectHiddenCharacters (pCorZ pEmoji : Nat → Bool) (t : List Nat) :
    List HiddenCharacterInfo :=
  scanLoopF pCorZ pEmoji t t.length 0 1 0

/-! ## Proof layer: basic facts about units and the alphabet -/

/-- Reading past the end yields unit 0. -/
theorem unitAt_oob {t : List Nat} {i : Nat} (h : t.length ≤ i) : unitAt t i = 0 := by
  unfold unitAt
  rw [List.getD_eq_default _ _ h]

/-- Units are 16-bit. -/
theorem unitAt_lt (t : List Nat) (i : Nat) : unitAt t i < 65536 :=
  Nat.mod_lt _ (by omega)

/-- The six alphabet members, enumerated. -/
theorem alpha_cases {c : Nat} (h : isBinaryEncodingChar c = true) :
    c = 0x200B ∨ c = 0x200C ∨ c = 0x200D ∨ c = 0xFEFF ∨ c = 0x2062 ∨ c = 0x2064 := by
  have h' := h
  simp only [isBinaryEncodingChar, Bool.or_eq_true, beq_iff_eq] at h'
  tauto

theorem alpha_not_high {c : Nat} (h : isBinaryEncodingChar c = true) :
    isHighSurrogate c = false := by
  rcases alpha_cases h with rfl | rfl | rfl | rfl | rfl | rfl <;> rfl

theorem alpha_not_low {c : Nat} (h : isBinaryEncodingChar c = true) :
    isLowSurrogate c = false := by
  rcases alpha_cases h with rfl | rfl | rfl | rfl | rfl | rfl <;> rfl

theorem alpha_lt {c : Nat} (h : isBinaryEncodingChar c = true) : c < 0x10000 := by
  rcases alpha_cases h with rfl | rfl | rfl | rfl | rfl | rfl <;> omega

theorem alpha_ne_nl {c : Nat} (h : isBinaryEncodingChar c = true) : c ≠ 10 := by
  rcases alpha_cases h with rfl | rfl | rfl | rfl | rfl | rfl <;> omega

theorem alpha_ne_zero {c : Nat} (h : isBinaryEncodingChar c = true) : c ≠ 0 := by
  rcases alpha_cases h with rfl | rfl | rfl | rfl | rfl | rfl <;> omega

theorem not_alpha_big {c : Nat} (h : 0x10000 ≤ c) : isBinaryEncodingChar c = false := by
  cases hb : isBinaryEncodingChar c with
  | false => rfl
  | true => exact absurd (alpha_lt hb) (by omega)

theorem not_alpha_high {c : Nat} (h : isHighSurrogate c = true) :
    isBinaryEncodingChar c = false := by
  cases hb : isBinaryEncodingChar c with
  | false => rfl
  | true => rw [alpha_not_high hb] at h; exact absurd h (by simp)

/-- An alphabet unit lies inside the input. -/
theorem alpha_unit_lt_len {t : List Nat} {i : Nat}
    (h : isBinaryEncodingChar (unitAt t i) = true) : i < t.length := by
  by_contra hc
  rw [unitAt_oob (by omega)] at h
  exact absurd h (by decide)

theorem codePointAtD_of_not_high {t : List Nat} {i : Nat}
    (h : isHighSurrogate (unitAt t i) = false) : codePointAtD t i = unitAt t i := by
  unfold codePointAtD
  rw [h]
  rfl

theorem codePointAtD_high_low {t : List Nat} {i : Nat}
    (hh : isHighSurrogate (unitAt t i) = true)
    (hl : isLowSurrogate (unitAt t (i + 1)) = true) :
    codePointAtD t i =
      0x10000 + (unitAt t i - 0xD800) * 0x400 + (unitAt t (i + 1) - 0xDC00) := by
  unfold codePointAtD
  rw [hh, hl]
  simp

theorem codePointAtD_high_nolow {t : List Nat} {i : Nat}
    (hh : isHighSurrogate (unitAt t i) = true)
    (hl : isLowSurrogate (unitAt t (i + 1)) = false) :
    codePointAtD t i = unitAt t i := by
  unfold codePointAtD
  rw [hh, hl]
  simp

/-- The inner loop's alphabet check on the code point coincides with the
check on the unit: no alphabet member is a surrogate, and combined pairs
are too large. -/
theorem codePointAtD_alpha_iff (t : List Nat) (i : Nat) :
    isBinaryEncodingChar (codePointAtD t i) = isBinaryEncodingChar (unitAt t i) := by
  cases hh : isHighSurrogate (unitAt t i) with
  | false => rw [codePointAtD_of_not_high hh]
  | true =>
    rw [not_alpha_high hh]
    cases hl : isLowSurrogate (unitAt t (i + 1)) with
    | false => rw [codePointAtD_high_nolow hh hl, not_alpha_high hh]
    | true =>
      rw [codePointAtD_high_low hh hl]
      exact not_alpha_big (by omega)

/-- The surrogate-advance test in code-point form. -/
theorem codePointAtD_big_iff (t : List Nat) (i : Nat) :
    0xFFFF < codePointAtD t i ↔
      (isHighSurrogate (unitAt t i) = true ∧ isLowSurrogate (unitAt t (i + 1)) = true) := by
  constructor
  · intro h
    cases hh : isHighSurrogate (unitAt t i) with
    | false => rw [codePointAtD_of_not_high hh] at h; exact absurd (unitAt_lt t i) (by omega)
    | true =>
      cases hl : isLowSurrogate (unitAt t (i + 1)) with
      | false =>
        rw [codePointAtD_high_nolow hh hl] at h
        exact absurd (unitAt_lt t i) (by omega)
      | true => exact ⟨rfl, rfl⟩
  · rintro ⟨hh, hl⟩
    rw [codePointAtD_high_low hh hl]
    omega

theorem codePointAtD_small {t : List Nat} {i : Nat}
    (h : ¬ 0xFFFF < codePointAtD t i) : codePointAtD t i = unitAt t i := by
  cases hh : isHighSurrogate (unitAt t i) with
  | false => exact codePointAtD_of_not_high hh
  | true =>
    cases hl : isLowSurrogate (unitAt t (i + 1)) with
    | false => exact codePointAtD_high_nolow hh hl
    | true => exact absurd ((codePointAtD_big_iff t i).mpr ⟨hh, hl⟩) h

/-! ## Proof layer: the length of the alphabet run starting at a position -/

/-- Reference computation of the run length, with explicit fuel. -/
def runLenAux (t : List Nat) : Nat → Nat → Nat
  | 0, _ => 0
  | f + 1, j =>
    if j < t.length then
      (if isBinaryEncodingChar (unitAt t j) then runLenAux t f (j + 1) + 1 else 0)
    else 0

/-- Length of the maximal alphabet run starting at `j`. -/
def runLen (t : List Nat) (j : Nat) : Nat := runLenAux t (t.length - j) j

theorem runLenAux_le (t : List Nat) : ∀ f j, runLenAux t f j ≤ f := by
  intro f
  induction f with
  | zero => intro j; simp [runLenAux]
  | succ f ih =>
    intro j
    unfold runLenAux
    split
    · split
      · have := ih (j + 1); omega
      · omega
    · omega

theorem runLen_le (t : List Nat) (j : Nat) : runLen t j ≤ t.length - j :=
  runLenAux_le t _ j

theorem runLen_zero {t : List Nat} {j : Nat}
    (h : ¬(j < t.length ∧ isBinaryEncodingChar (unitAt t j) = true)) :
    runLen t j = 0 := by
  unfold runLen
  cases hf : t.length - j with
  | zero => rfl
  | succ f =>
    unfold runLenAux
    split
    · rename_i h1
      split
      · rename_i h2; exact absurd ⟨h1, h2⟩ h
      · rfl
    · rfl

theorem runLen_succ {t : List Nat} {j : Nat} (h1 : j < t.length)
    (h2 : isBinaryEncodingChar (unitAt t j) = true) :
    runLen t j = runLen t (j + 1) + 1 := by
  have hf : t.length - j = (t.length - (j + 1)) + 1 := by omega
  unfold runLen
  rw [hf]
  show (if j < t.length then
      (if isBinaryEncodingChar (unitAt t j) then runLenAux t (t.length - (j + 1)) (j + 1) + 1 else 0)
    else 0) = runLenAux t (t.length - (j + 1)) (j + 1) + 1
  rw [if_pos h1, if_pos h2]

/-- A nonzero run length certifies position and alphabet membership. -/
theorem runLen_pos_inv {t : List Nat} {j : Nat} (h : 0 < runLen t j) :
    j < t.length ∧ isBinaryEncodingChar (unitAt t j) = true := by
  by_contra hc
  rw [runLen_zero hc] at h
  omega

/-- Everything inside the run is in the alphabet. -/
theorem runLen_alpha (t : List Nat) :
    ∀ d j x, t.length - j ≤ d → x < runLen t j →
      isBinaryEncodingChar (unitAt t (j + x)) = true := by
  intro d
  induction d with
  | zero =>
    intro j x hd hx
    rw [runLen_zero (by omega)] at hx
    omega
  | succ d ih =>
    intro j x hd hx
    have h0 : 0 < runLen t j := by omega
    obtain ⟨h1, h2⟩ := runLen_pos_inv h0
    cases x with
    | zero => simpa using h2
    | succ x =>
      rw [runLen_succ h1 h2] at hx
      have hrec := ih (j + 1) x (by omega) (by omega)
      have harr : j + 1 + x = j + (x + 1) := by omega
      rwa [harr] at hrec

/-- The run stops at end of input or at a non-alphabet unit. -/
theorem runLen_boundary (t : List Nat) :
    ∀ d j, t.length - j ≤ d →
      (j + runLen t j = t.length ∨
        isBinaryEncodingChar (unitAt t (j + runLen t j)) = false) := by
  intro d
  induction d with
  | zero =>
    intro j hd
    rw [runLen_zero (by omega)]
    rcases Nat.lt_or_ge j t.length with h | h
    · omega
    · rcases Nat.eq_or_lt_of_le h with h' | h'
      · left; omega
      · right
        rw [unitAt_oob (by omega)]
        rfl
  | succ d ih =>
    intro j hd
    rcases Nat.eq_zero_or_pos (runLen t j) with h0 | h0
    · rw [h0]
      by_cases h1 : j < t.length
      · by_cases h2 : isBinaryEncodingChar (unitAt t j) = true
        · rw [runLen_succ h1 h2] at h0; omega
        · right; simpa [Bool.not_eq_true] using h2
      · rcases Nat.eq_or_lt_of_le (Nat.le_of_not_lt h1) with h' | h'
        · left; omega
        · right
          rw [unitAt_oob (by omega)]
          rfl
    · obtain ⟨h1, h2⟩ := runLen_pos_inv h0
      rw [runLen_succ h1 h2]
      have := ih (j + 1) (by omega)
      rcases this with h | h
      · left; omega
      · right
        have harr : j + 1 + runLen t (j + 1) = j + (runLen t (j + 1) + 1) := by omega
        rwa [harr] at h

/-! ## Proof layer: maximal runs -/

/-- `maximalRun t s len`: positions `s, …, s + len - 1` hold alphabet units
and the run can be extended in neither direction. -/
def maximalRun (t : List Nat) (s len : Nat) : Prop :=
  0 < len ∧ s + len ≤ t.length ∧
  (∀ j, j < len → isBinaryEncodingChar (unitAt t (s + j)) = true) ∧
  (s = 0 ∨ isBinaryEncodingChar (unitAt t (s - 1)) = false) ∧
  (s + len = t.length ∨ isBinaryEncodingChar (unitAt t (s + len)) = false)

instance (t : List Nat) (s len : Nat) : Decidable (maximalRun t s len) := by
  unfold maximalRun
  infer_instance

/-- Inside a maximal run the computed run length is the distance to the
run's end. -/
theorem runLen_of_maximal {t : List Nat} {s len : Nat} (h : maximalRun t s len) :
    ∀ d, d ≤ len → runLen t (s + len - d) = d := by
  obtain ⟨hpos, hle, hmem, _hleft, hright⟩ := h
  intro d
  induction d with
  | zero =>
    intro _
    apply runLen_zero
    rintro ⟨h1, h2⟩
    rcases hright with h3 | h3
    · rw [Nat.sub_zero] at h1
      omega
    · rw [Nat.sub_zero] at h2
      rw [h3] at h2
      exact absurd h2 (by simp)
  | succ d ih =>
    intro hd
    have h1 : s + len - (d + 1) < t.length := by omega
    have h2 : isBinaryEncodingChar (unitAt t (s + len - (d + 1))) = true := by
      have := hmem (len - (d + 1)) (by omega)
      have harr : s + (len - (d + 1)) = s + len - (d + 1) := by omega
      rwa [harr] at this
    rw [runLen_succ h1 h2]
    have harr : s + len - (d + 1) + 1 = s + len - d := by omega
    rw [harr, ih (by omega)]

/-- The run length at any position of a maximal run. -/
theorem runLen_at_maximal {t : List Nat} {s len j : Nat} (h : maximalRun t s len)
    (h1 : s ≤ j) (h2 : j ≤ s + len) : runLen t j = s + len - j := by
  have := runLen_of_maximal h (s + len - j) (by omega)
  have harr : s + len - (s + len - j) = j := by omega
  rwa [harr] at this

/-! ## Proof layer: the run-extension loop computes `runLen` -/

theorem patternLoopF_spec (t : List Nat) :
    ∀ fuel j n (e el ec : Int) (l c : Nat), runLen t j ≤ fuel →
      patternLoopF t fuel ⟨j, n, e, el, ec, l, c⟩ =
        (if runLen t j = 0 then ⟨j, n, e, el, ec, l, c⟩
         else ⟨j + runLen t j, n + runLen t j, ((j + runLen t j - 1 : Nat) : Int), (l : Int),
               ((j + runLen t j - 1 : Nat) : Int) - (c : Int), l, c⟩) := by
  intro fuel
  induction fuel with
  | zero =>
    intro j n e el ec l c hf
    have h0 : runLen t j = 0 := by omega
    rw [h0, if_pos rfl]
    rfl
  | succ fuel ih =>
    intro j n e el ec l c hf
    rcases Nat.eq_zero_or_pos (runLen t j) with h0 | h0
    · rw [h0, if_pos rfl]
      have hc : ¬(j < t.length ∧ isBinaryEncodingChar (unitAt t j) = true) := by
        intro ⟨h1, h2⟩
        rw [runLen_succ h1 h2] at h0
        omega
      unfold patternLoopF
      by_cases h1 : j < t.length
      · rw [if_pos h1]
        have h2 : isBinaryEncodingChar (unitAt t j) = false := by
          cases h2 : isBinaryEncodingChar (unitAt t j) with
          | false => rfl
          | true => exact absurd ⟨h1, h2⟩ hc
        rw [codePointAtD_alpha_iff, h2]
        rfl
      · rw [if_neg h1]
    · obtain ⟨h1, h2⟩ := runLen_pos_inv h0
      rw [if_neg (by omega)]
      unfold patternLoopF
      rw [if_pos h1, codePointAtD_alpha_iff, h2]
      simp only [if_true]
      have hcp : codePointAtD t j = unitAt t j := codePointAtD_of_not_high (alpha_not_high h2)
      have hbig : ¬ 0xFFFF < codePointAtD t j := by
        rw [hcp]
        have := alpha_lt h2
        omega
      have hnl : ¬ unitAt t j = 10 := alpha_ne_nl h2
      rw [if_neg hbig, if_neg hnl, if_neg hnl]
      have hrec := ih (j + 1) (n + 1) (j : Int) (l : Int) ((j : Int) - (c : Int)) l c
        (by rw [runLen_succ h1 h2] at hf; omega)
      rw [hrec]
      rcases Nat.eq_zero_or_pos (runLen t (j + 1)) with hz | hz
      · rw [if_pos hz, runLen_succ h1 h2, hz]
        simp
      · rw [if_neg (by omega), runLen_succ h1 h2]
        have e3 : j + 1 + runLen t (j + 1) - 1 = j + (runLen t (j + 1) + 1) - 1 := by omega
        have e1 : j + 1 + runLen t (j + 1) = j + (runLen t (j + 1) + 1) := by omega
        have e2 : n + 1 + runLen t (j + 1) = n + (runLen t (j + 1) + 1) := by omega
        rw [e3, e1, e2]

/-! ## Proof layer: the state computed before the branch decision -/

theorem mainRunState_zero {t : List Nat} {i l c : Nat} (hr : runLen t i = 0) :
    mainRunState t i l c = ⟨i, 0, -1, -1, -1, l, c⟩ := by
  unfold mainRunState
  cases ha : isBinaryEncodingChar (codePointAtD t i) with
  | false => simp
  | true =>
    rw [codePointAtD_alpha_iff] at ha
    have h1 : i < t.length := alpha_unit_lt_len ha
    rw [runLen_succ h1 ha] at hr
    omega

theorem mainRunState_pos {t : List Nat} {i l c : Nat} (hr : 0 < runLen t i) :
    mainRunState t i l c =
      ⟨i + runLen t i, runLen t i, ((i + runLen t i - 1 : Nat) : Int), (l : Int),
       ((i + runLen t i - 1 : Nat) : Int) - (c : Int), l, c⟩ := by
  obtain ⟨h1, h2⟩ := runLen_pos_inv hr
  unfold mainRunState
  rw [codePointAtD_alpha_iff, h2]
  simp only [if_true]
  have hfuel : runLen t i ≤ t.length - i := runLen_le t i
  rw [patternLoopF_spec t (t.length - i) i 0 (-1) (-1) (-1) l c hfuel]
  rw [if_neg (by omega)]
  simp

theorem mainRunState_patternLength (t : List Nat) (i l c : Nat) :
    (mainRunState t i l c).patternLength = runLen t i := by
  rcases Nat.eq_zero_or_pos (runLen t i) with h0 | h0
  · rw [mainRunState_zero h0, h0]
  · rw [mainRunState_pos h0]

/-! ## Proof layer: the two shapes of a main-loop step -/

theorem scanLoopF_stop {pCorZ pEmoji : Nat → Bool} {t : List Nat} {i l c : Nat}
    (h : t.length ≤ i) : ∀ fuel, scanLoopF pCorZ pEmoji t fuel i l c = [] := by
  intro fuel
  cases fuel with
  | zero => rfl
  | succ fuel =>
    simp only [scanLoopF]
    rw [if_neg (by omega)]

theorem mainRunState_endLine_toNat {t : List Nat} {i l c : Nat} (h8 : 0 < runLen t i) :
    (mainRunState t i l c).patternEndLine.toNat = l := by
  rw [mainRunState_pos h8]
  simp

theorem mainRunState_endIndex_toNat {t : List Nat} {i l c : Nat} (h8 : 0 < runLen t i) :
    (mainRunState t i l c).patternEndIndex.toNat = i + runLen t i - 1 := by
  rw [mainRunState_pos h8]
  simp

/-- Pattern branch of one loop step. -/
theorem scanLoopF_pattern {pCorZ pEmoji : Nat → Bool} {t : List Nat} {i l c fuel : Nat}
    (h : i < t.length) (hm : MIN_PATTERN_LENGTH ≤ runLen t i) :
    scanLoopF pCorZ pEmoji t (fuel + 1) i l c =
      patternFinding t i l c ::
        scanLoopF pCorZ pEmoji t fuel (i + runLen t i) l
          (lastNLStart t (i + runLen t i - 1)) := by
  have h8 : 0 < runLen t i := by
    have : MIN_PATTERN_LENGTH = 8 := rfl
    omega
  simp only [scanLoopF]
  rw [if_pos h, mainRunState_patternLength, if_pos hm, mainRunState_endLine_toNat h8,
    mainRunState_endIndex_toNat h8]

/-- Single-character branch of one loop step. -/
theorem scanLoopF_single {pCorZ pEmoji : Nat → Bool} {t : List Nat} {i l c fuel : Nat}
    (h : i < t.length) (hm : runLen t i < MIN_PATTERN_LENGTH) :
    scanLoopF pCorZ pEmoji t (fuel + 1) i l c =
      singleCharStep pCorZ pEmoji t i l c ++
        scanLoopF pCorZ pEmoji t fuel
          (i + (if 0xFFFF < codePointAtD t i then 2 else 1))
          (if unitAt t i = 10 then l + 1 else l)
          (if unitAt t i = 10 then i + 1 else c) := by
  simp only [scanLoopF]
  rw [if_pos h, mainRunState_patternLength, if_neg (by omega)]

/-! ## Proof layer: shapes of the emitted findings -/

theorem patternFinding_index (t : List Nat) (i l c : Nat) :
    (patternFinding t i l c).index = i := rfl

theorem patternFinding_line (t : List Nat) (i l c : Nat) :
    (patternFinding t i l c).line = l := rfl

theorem patternFinding_category (t : List Nat) (i l c : Nat) :
    (patternFinding t i l c).category = "BinaryEncodingPattern" := rfl

theorem patternFinding_endIndex {t : List Nat} {i : Nat} (l c : Nat) (h8 : 0 < runLen t i) :
    (patternFinding t i l c).endIndex = some ((i + runLen t i - 1 : Nat) : Int) := by
  unfold patternFinding
  rw [mainRunState_pos h8]

theorem patternFinding_endLine {t : List Nat} {i : Nat} (l c : Nat) (h8 : 0 < runLen t i) :
    (patternFinding t i l c).endLine = some ((l : Nat) : Int) := by
  unfold patternFinding
  rw [mainRunState_pos h8]

theorem patternFinding_ends_isSome (t : List Nat) (i l c : Nat) :
    (patternFinding t i l c).endIndex.isSome = true ∧
    (patternFinding t i l c).endLine.isSome = true ∧
    (patternFinding t i l c).endColumn.isSome = true :=
  ⟨rfl, rfl, rfl⟩

/-- No registry category is the pattern category. -/
theorem allHiddenCharsGet_category_ne {cp : Nat} {info : HiddenInfo}
    (h : allHiddenCharsGet cp = some info) : info.category ≠ "BinaryEncodingPattern" := by
  unfold allHiddenCharsGet at h
  split_ifs at h <;> cases h <;> decide

theorem singleCharStep_nolookup {pCorZ pEmoji : Nat → Bool} {t : List Nat} {i l c : Nat}
    (h : allHiddenCharsGet (codePointAtD t i) = none) :
    singleCharStep pCorZ pEmoji t i l c = [] := by
  unfold singleCharStep
  rw [h]

theorem singleCharStep_skip {pCorZ pEmoji : Nat → Bool} {t : List Nat} {i l c : Nat}
    (hs : skipSingleDiagnostic pCorZ pEmoji t i = true) :
    singleCharStep pCorZ pEmoji t i l c = [] := by
  unfold singleCharStep
  cases h : allHiddenCharsGet (codePointAtD t i) with
  | none => rfl
  | some info => simp [hs]

theorem singleCharStep_emit {pCorZ pEmoji : Nat → Bool} {t : List Nat} {i l c : Nat}
    {info : HiddenInfo} (h : allHiddenCharsGet (codePointAtD t i) = some info)
    (hs : skipSingleDiagnostic pCorZ pEmoji t i = false) :
    singleCharStep pCorZ pEmoji t i l c =
      [{ character := "U+" ++ padStart4 (natToHex (codePointAtD t i))
         codePoint := (codePointAtD t i : Int)
         index := i
         line := l
         column := (i : Int) - (c : Int)
         category := info.category
         message := info.message
         endIndex := none
         endLine := none
         endColumn := none }] := by
  unfold singleCharStep
  rw [h, hs]
  simp

/-- Everything a member of the single-character emission satisfies. -/
theorem singleCharStep_mem {pCorZ pEmoji : Nat → Bool} {t : List Nat} {i l c : Nat}
    {f : HiddenCharacterInfo} (hf : f ∈ singleCharStep pCorZ pEmoji t i l c) :
    f.index = i ∧ f.line = l ∧ f.endIndex = none ∧ f.endLine = none ∧
    f.endColumn = none ∧ f.codePoint = (codePointAtD t i : Int) ∧
    ∃ info, allHiddenCharsGet (codePointAtD t i) = some info ∧
      f.category = info.category ∧ f.message = info.message := by
  cases h : allHiddenCharsGet (codePointAtD t i) with
  | none => rw [singleCharStep_nolookup h] at hf; simp at hf
  | some info =>
    cases hs : skipSingleDiagnostic pCorZ pEmoji t i with
    | true => rw [singleCharStep_skip hs] at hf; simp at hf
    | false =>
      rw [singleCharStep_emit h hs] at hf
      rw [List.mem_singleton] at hf
      subst hf
      exact ⟨rfl, rfl, rfl, rfl, rfl, rfl, info, rfl, rfl, rfl⟩

theorem singleCharStep_length (pCorZ pEmoji : Nat → Bool) (t : List Nat) (i l c : Nat) :
    (singleCharStep pCorZ pEmoji t i l c).length ≤ 1 := by
  cases h : allHiddenCharsGet (codePointAtD t i) with
  | none => rw [singleCharStep_nolookup h]; simp
  | some info =>
    cases hs : skipSingleDiagnostic pCorZ pEmoji t i with
    | true => rw [singleCharStep_skip hs]; simp
    | false => rw [singleCharStep_emit h hs]; simp

/-! ## Proof layer: scan-wide invariants -/

theorem list_nil_or_singleton {α : Type} {l : List α} (h : l.length ≤ 1) :
    l = [] ∨ ∃ a, l = [a] := by
  cases l with
  | nil => exact Or.inl rfl
  | cons a l' =>
    cases l' with
    | nil => exact Or.inr ⟨a, rfl⟩
    | cons b l'' => simp at h

/-- Every finding of a scan started at `i` sits at or after `i`. -/
theorem scanLoopF_index_ge (pCorZ pEmoji : Nat → Bool) (t : List Nat) :
    ∀ fuel i l c f, f ∈ scanLoopF pCorZ pEmoji t fuel i l c → i ≤ f.index := by
  intro fuel
  induction fuel with
  | zero => intro i l c f hf; simp [scanLoopF] at hf
  | succ fuel ih =>
    intro i l c f hf
    by_cases h : i < t.length
    · rcases Nat.lt_or_ge (runLen t i) MIN_PATTERN_LENGTH with hm | hm
      · rw [scanLoopF_single h hm] at hf
        rcases List.mem_append.mp hf with h1 | h1
        · rw [(singleCharStep_mem h1).1]
        · have hrec := ih _ _ _ _ h1
          have hadv : 1 ≤ (if 0xFFFF < codePointAtD t i then 2 else 1) := by
            split <;> omega
          omega
      · rw [scanLoopF_pattern h hm] at hf
        rcases List.mem_cons.mp hf with h1 | h1
        · rw [h1, patternFinding_index]
        · have hrec := ih _ _ _ _ h1
          omega
    · rw [scanLoopF_stop (by omega)] at hf
      simp at hf

/-- The emitted list is strictly sorted by `index`. -/
theorem scanLoopF_pairwise (pCorZ pEmoji : Nat → Bool) (t : List Nat) :
    ∀ fuel i l c,
      List.Pairwise (fun a b => a.index < b.index) (scanLoopF pCorZ pEmoji t fuel i l c) := by
  intro fuel
  induction fuel with
  | zero => intro i l c; exact List.Pairwise.nil
  | succ fuel ih =>
    intro i l c
    by_cases h : i < t.length
    · rcases Nat.lt_or_ge (runLen t i) MIN_PATTERN_LENGTH with hm | hm
      · rw [scanLoopF_single h hm]
        apply List.pairwise_append.mpr
        refine ⟨?_, ih _ _ _, ?_⟩
        · rcases list_nil_or_singleton (singleCharStep_length pCorZ pEmoji t i l c) with
            hn | ⟨a, hn⟩ <;> rw [hn] <;> simp
        · intro a ha b hb
          rw [(singleCharStep_mem ha).1]
          have hb' := scanLoopF_index_ge pCorZ pEmoji t _ _ _ _ _ hb
          have hadv : 1 ≤ (if 0xFFFF < codePointAtD t i then 2 else 1) := by
            split <;> omega
          omega
      · rw [scanLoopF_pattern h hm]
        apply List.Pairwise.cons
        · intro b hb
          have hb' := scanLoopF_index_ge pCorZ pEmoji t _ _ _ _ _ hb
          rw [patternFinding_index]
          have : MIN_PATTERN_LENGTH = 8 := rfl
          omega
        · exact ih _ _ _
    · rw [scanLoopF_stop (by omega)]
      exact List.Pairwise.nil

/-- The end fields are present exactly on pattern findings. -/
theorem scanLoopF_endFields (pCorZ pEmoji : Nat → Bool) (t : List Nat) :
    ∀ fuel i l c f, f ∈ scanLoopF pCorZ pEmoji t fuel i l c →
      ((f.category = "BinaryEncodingPattern" ↔ f.endIndex.isSome = true) ∧
       (f.category = "BinaryEncodingPattern" ↔ f.endLine.isSome = true) ∧
       (f.category = "BinaryEncodingPattern" ↔ f.endColumn.isSome = true)) := by
  intro fuel
  induction fuel with
  | zero => intro i l c f hf; simp [scanLoopF] at hf
  | succ fuel ih =>
    intro i l c f hf
    by_cases h : i < t.length
    · rcases Nat.lt_or_ge (runLen t i) MIN_PATTERN_LENGTH with hm | hm
      · rw [scanLoopF_single h hm] at hf
        rcases List.mem_append.mp hf with h1 | h1
        · obtain ⟨_, _, he1, he2, he3, _, info, hinfo, hcat, _⟩ := singleCharStep_mem h1
          have hne := allHiddenCharsGet_category_ne hinfo
          rw [hcat, he1, he2, he3]
          simp [hne]
        · exact ih _ _ _ _ h1
      · rw [scanLoopF_pattern h hm] at hf
        rcases List.mem_cons.mp hf with h1 | h1
        · obtain ⟨hi1, hi2, hi3⟩ := patternFinding_ends_isSome t i l c
          rw [h1, patternFinding_category, hi1, hi2, hi3]
          simp
        · exact ih _ _ _ _ h1
    · rw [scanLoopF_stop (by omega)] at hf
      simp at hf

/-- At most one finding per input unit. -/
theorem scanLoopF_length_le (pCorZ pEmoji : Nat → Bool) (t : List Nat) :
    ∀ fuel i l c, (scanLoopF pCorZ pEmoji t fuel i l c).length ≤ t.length - i := by
  intro fuel
  induction fuel with
  | zero => intro i l c; simp [scanLoopF]
  | succ fuel ih =>
    intro i l c
    by_cases h : i < t.length
    · rcases Nat.lt_or_ge (runLen t i) MIN_PATTERN_LENGTH with hm | hm
      · rw [scanLoopF_single h hm]
        rw [List.length_append]
        have h1 := singleCharStep_length pCorZ pEmoji t i l c
        have h2 := ih (i + (if 0xFFFF < codePointAtD t i then 2 else 1))
          (if unitAt t i = 10 then l + 1 else l) (if unitAt t i = 10 then i + 1 else c)
        have hadv : 1 ≤ (if 0xFFFF < codePointAtD t i then 2 else 1) := by
          split <;> omega
        omega
      · rw [scanLoopF_pattern h hm]
        rw [List.length_cons]
        have h2 := ih (i + runLen t i) l (lastNLStart t (i + runLen t i - 1))
        have h3 : runLen t i ≤ t.length - i := runLen_le t i
        have : MIN_PATTERN_LENGTH = 8 := rfl
        omega
    · rw [scanLoopF_stop (by omega)]
      simp

/-- Any fuel at least `t.length - i` computes the same scan: the loop
terminates within that many iterations. -/
theorem scanLoopF_fuel_irrel (pCorZ pEmoji : Nat → Bool) (t : List Nat) :
    ∀ fuel1 fuel2 i l c, t.length ≤ i + fuel1 → t.length ≤ i + fuel2 →
      scanLoopF pCorZ pEmoji t fuel1 i l c = scanLoopF pCorZ pEmoji t fuel2 i l c := by
  intro fuel1
  induction fuel1 with
  | zero =>
    intro fuel2 i l c h1 h2
    rw [scanLoopF_stop (by omega), scanLoopF_stop (by omega)]
  | succ fuel1 ih =>
    intro fuel2 i l c h1 h2
    by_cases h : i < t.length
    · cases fuel2 with
      | zero => omega
      | succ fuel2 =>
        rcases Nat.lt_or_ge (runLen t i) MIN_PATTERN_LENGTH with hm | hm
        · rw [scanLoopF_single h hm, scanLoopF_single h hm]
          congr 1
          have hadv : 1 ≤ (if 0xFFFF < codePointAtD t i then 2 else 1) := by
            split <;> omega
          exact ih fuel2 _ _ _ (by omega) (by omega)
        · rw [scanLoopF_pattern h hm, scanLoopF_pattern h hm]
          congr 1
          have : MIN_PATTERN_LENGTH = 8 := rfl
          exact ih fuel2 _ _ _ (by omega) (by omega)
    · rw [scanLoopF_stop (by omega), scanLoopF_stop (by omega)]

/-! ## Proof layer: cursor reachability -/

theorem runLen_alpha_all (t : List Nat) (j x : Nat) (hx : x < runLen t j) :
    isBinaryEncodingChar (unitAt t (j + x)) = true :=
  runLen_alpha t t.length j x (by omega) hx

/-- No alphabet interval of pattern length crosses position `k`: the
scanner's pattern branch can therefore never jump over `k`. -/
def crossFree (t : List Nat) (k : Nat) : Prop :=
  ∀ j m, j < k → k < j + m → j + m ≤ t.length → 8 ≤ m →
    ¬(∀ x, x < m → isBinaryEncodingChar (unitAt t (j + x)) = true)

theorem crossFree_of_nonalpha {t : List Nat} {k : Nat}
    (h : isBinaryEncodingChar (unitAt t k) = false) : crossFree t k := by
  intro j m hj hk _ _ hall
  have hx := hall (k - j) (by omega)
  rw [show j + (k - j) = k by omega] at hx
  simp [h] at hx

theorem crossFree_of_prev_nonalpha {t : List Nat} {k : Nat} (h0 : 0 < k)
    (h : isBinaryEncodingChar (unitAt t (k - 1)) = false) : crossFree t k := by
  intro j m hj hk _ _ hall
  have hx := hall (k - 1 - j) (by omega)
  rw [show j + (k - 1 - j) = k - 1 by omega] at hx
  simp [h] at hx

theorem crossFree_of_shortRun {t : List Nat} {s len k : Nat} (hrun : maximalRun t s len)
    (hlen : len < 8) (h1 : s ≤ k) (h2 : k < s + len) : crossFree t k := by
  intro j m hj hk hjm hm hall
  obtain ⟨hpos, hle, hmem, hleft, hright⟩ := hrun
  have hjs : s ≤ j := by
    by_contra hc
    push_neg at hc
    rcases hleft with h0 | h0
    · omega
    · have hx := hall (s - 1 - j) (by omega)
      rw [show j + (s - 1 - j) = s - 1 by omega] at hx
      simp [h0] at hx
  have hend : j + m ≤ s + len := by
    by_contra hc
    push_neg at hc
    rcases hright with h0 | h0
    · omega
    · have hx := hall (s + len - j) (by omega)
      rw [show j + (s + len - j) = s + len by omega] at hx
      simp [h0] at hx
  omega

/-- Decomposition: when position `k` starts a code point and no qualifying
run crosses it, the scan from any earlier position is a prefix of findings
strictly before `k` followed by a scan from exactly `k`. -/
theorem reach (pCorZ pEmoji : Nat → Bool) (t : List Nat) (k : Nat) (hk : k < t.length)
    (hcp : ¬(isLowSurrogate (unitAt t k) = true ∧ 0 < k ∧
             isHighSurrogate (unitAt t (k - 1)) = true))
    (hcf : crossFree t k) :
    ∀ fuel i l c, i ≤ k → t.length ≤ i + fuel →
      ∃ pre fuel' l' c',
        scanLoopF pCorZ pEmoji t fuel i l c =
          pre ++ scanLoopF pCorZ pEmoji t fuel' k l' c' ∧
        t.length ≤ k + fuel' ∧ ∀ f ∈ pre, f.index < k := by
  intro fuel
  induction fuel with
  | zero => intro i l c hik hf; omega
  | succ fuel ih =>
    intro i l c hik hf
    rcases Nat.eq_or_lt_of_le hik with heq | hlt
    · exact ⟨[], fuel + 1, l, c, by rw [heq]; simp, by omega, by simp⟩
    · have hilen : i < t.length := by omega
      rcases Nat.lt_or_ge (runLen t i) MIN_PATTERN_LENGTH with hm | hm
      · have hadv : 1 ≤ (if 0xFFFF < codePointAtD t i then 2 else 1) := by
          split <;> omega
        have hstep : i + (if 0xFFFF < codePointAtD t i then 2 else 1) ≤ k := by
          by_cases hbig : 0xFFFF < codePointAtD t i
          · rw [if_pos hbig]
            by_contra hc
            obtain ⟨hh, hl⟩ := (codePointAtD_big_iff t i).mp hbig
            apply hcp
            refine ⟨?_, by omega, ?_⟩
            · rw [show k = i + 1 by omega]; exact hl
            · rw [show k - 1 = i by omega]; exact hh
          · rw [if_neg hbig]; omega
        rw [scanLoopF_single hilen hm]
        obtain ⟨pre, fuel', l', c', heq', hlen', hpre⟩ :=
          ih (i + (if 0xFFFF < codePointAtD t i then 2 else 1))
            (if unitAt t i = 10 then l + 1 else l)
            (if unitAt t i = 10 then i + 1 else c)
            hstep (by omega)
        refine ⟨singleCharStep pCorZ pEmoji t i l c ++ pre, fuel', l', c', ?_, hlen', ?_⟩
        · rw [heq', List.append_assoc]
        · intro f hfm
          rcases List.mem_append.mp hfm with hf1 | hf1
          · rw [(singleCharStep_mem hf1).1]; omega
          · exact hpre f hf1
      · have hm8 : MIN_PATTERN_LENGTH = 8 := rfl
        have hrle : runLen t i ≤ t.length - i := runLen_le t i
        have hstep : i + runLen t i ≤ k := by
          by_contra hc
          exact hcf i (runLen t i) hlt (by omega) (by omega) (by omega)
            (fun x hx => runLen_alpha_all t i x hx)
        rw [scanLoopF_pattern hilen hm]
        obtain ⟨pre, fuel', l', c', heq', hlen', hpre⟩ :=
          ih (i + runLen t i) l (lastNLStart t (i + runLen t i - 1)) hstep (by omega)
        refine ⟨patternFinding t i l c :: pre, fuel', l', c', ?_, hlen', ?_⟩
        · rw [heq']; rfl
        · intro f hfm
          rcases List.mem_cons.mp hfm with hf1 | hf1
          · rw [hf1, patternFinding_index]; omega
          · exact hpre f hf1

/-! ## Proof layer: walking through a short maximal run -/

/-- Inside a maximal run shorter than the pattern minimum, every position is
classified singly: findings landing in the run are never pattern findings,
always sit on a registry member, and number at most the remaining length. -/
theorem walk_short (pCorZ pEmoji : Nat → Bool) {t : List Nat} {s len : Nat}
    (hrun : maximalRun t s len) (hlen : len < 8) :
    ∀ d, d ≤ len → ∀ fuel l c, t.length ≤ (s + len - d) + fuel →
      (∀ f ∈ scanLoopF pCorZ pEmoji t fuel (s + len - d) l c,
          s ≤ f.index → f.index < s + len →
          (f.category ≠ "BinaryEncodingPattern" ∧
           allHiddenCharsGet (unitAt t f.index) ≠ none ∧ f.endIndex = none)) ∧
      ((scanLoopF pCorZ pEmoji t fuel (s + len - d) l c).filter
          (fun g => decide (s ≤ g.index ∧ g.index < s + len))).length ≤ d := by
  intro d
  induction d with
  | zero =>
    intro _ fuel l c _
    constructor
    · intro f hmem _ h2
      have := scanLoopF_index_ge pCorZ pEmoji t fuel _ _ _ f hmem
      omega
    · have hemp : (scanLoopF pCorZ pEmoji t fuel (s + len - 0) l c).filter
          (fun g => decide (s ≤ g.index ∧ g.index < s + len)) = [] := by
        rw [List.filter_eq_nil_iff]
        intro a ha
        have := scanLoopF_index_ge pCorZ pEmoji t fuel _ _ _ a ha
        simp only [decide_eq_true_eq]
        omega
      rw [hemp]
      simp
  | succ d ih =>
    intro hd fuel l c hfuel
    have hjlt : s + len - (d + 1) < t.length := by
      obtain ⟨_, hle, _, _, _⟩ := hrun
      omega
    have hrl : runLen t (s + len - (d + 1)) = d + 1 := by
      have hgen := runLen_at_maximal hrun (j := s + len - (d + 1)) (by omega) (by omega)
      rw [hgen]
      omega
    have hm : runLen t (s + len - (d + 1)) < MIN_PATTERN_LENGTH := by
      rw [hrl]
      have : MIN_PATTERN_LENGTH = 8 := rfl
      omega
    cases fuel with
    | zero => omega
    | succ fuel =>
      rw [scanLoopF_single hjlt hm]
      have halpha : isBinaryEncodingChar (unitAt t (s + len - (d + 1))) = true := by
        obtain ⟨_, _, hmem', _, _⟩ := hrun
        have hx := hmem' (len - (d + 1)) (by omega)
        rwa [show s + (len - (d + 1)) = s + len - (d + 1) by omega] at hx
      have hsmall : ¬ 0xFFFF < codePointAtD t (s + len - (d + 1)) := by
        rw [codePointAtD_of_not_high (alpha_not_high halpha)]
        have := alpha_lt halpha
        omega
      have hnl : ¬ unitAt t (s + len - (d + 1)) = 10 := alpha_ne_nl halpha
      rw [if_neg hsmall, if_neg hnl, if_neg hnl,
        show s + len - (d + 1) + 1 = s + len - d by omega]
      obtain ⟨ihA, ihB⟩ := ih (by omega) fuel l c (by omega)
      constructor
      · intro f hmem h1 h2
        rcases List.mem_append.mp hmem with hm1 | hm1
        · obtain ⟨hidx, _, hend1, _, _, _, info, hinfo, hcat, _⟩ := singleCharStep_mem hm1
          refine ⟨?_, ?_, hend1⟩
          · rw [hcat]
            exact allHiddenCharsGet_category_ne hinfo
          · rw [hidx, ← codePointAtD_of_not_high (alpha_not_high halpha), hinfo]
            simp
        · exact ihA f hm1 h1 h2
      · rw [List.filter_append, List.length_append]
        have hsl : ((singleCharStep pCorZ pEmoji t (s + len - (d + 1)) l c).filter
            (fun g => decide (s ≤ g.index ∧ g.index < s + len))).length ≤ 1 :=
          le_trans (List.length_filter_le _ _)
            (singleCharStep_length pCorZ pEmoji t (s + len - (d + 1)) l c)
        omega

/-! ## Proof layer: decompositions at the level of the entry point -/

theorem detect_decompose (pCorZ pEmoji : Nat → Bool) (t : List Nat) (k : Nat)
    (hk : k < t.length)
    (hcp : ¬(isLowSurrogate (unitAt t k) = true ∧ 0 < k ∧
             isHighSurrogate (unitAt t (k - 1)) = true))
    (hcf : crossFree t k) :
    ∃ pre fuel' l' c',
      detectHiddenCharacters pCorZ pEmoji t =
        pre ++ scanLoopF pCorZ pEmoji t fuel' k l' c' ∧
      t.length ≤ k + fuel' ∧ ∀ f ∈ pre, f.index < k := by
  unfold detectHiddenCharacters
  exact reach pCorZ pEmoji t k hk hcp hcf t.length 0 1 0 (by omega) (by omega)

theorem crossFree_of_maximal_start {t : List Nat} {s len : Nat}
    (hrun : maximalRun t s len) : crossFree t s := by
  by_cases hs0 : s = 0
  · subst hs0
    intro j m hj
    omega
  · obtain ⟨_, _, _, hleft, _⟩ := hrun
    rcases hleft with h0 | h0
    · exact absurd h0 hs0
    · exact crossFree_of_prev_nonalpha (by omega) h0

theorem maximalRun_start_alpha {t : List Nat} {s len : Nat} (hrun : maximalRun t s len) :
    isBinaryEncodingChar (unitAt t s) = true := by
  obtain ⟨hpos, _, hmem, _, _⟩ := hrun
  have := hmem 0 (by omega)
  simpa using this

theorem maximalRun_start_not_pair {t : List Nat} {s len : Nat}
    (hrun : maximalRun t s len) :
    ¬(isLowSurrogate (unitAt t s) = true ∧ 0 < s ∧
      isHighSurrogate (unitAt t (s - 1)) = true) := by
  rintro ⟨hlow, _, _⟩
  rw [alpha_not_low (maximalRun_start_alpha hrun)] at hlow
  exact absurd hlow (by simp)

/-- Aggregate behaviour of a whole scan on a short maximal run: only
single-character findings on registry members, at most one per run unit. -/
theorem detect_shortRun (pCorZ pEmoji : Nat → Bool) {t : List Nat} {s len : Nat}
    (hrun : maximalRun t s len) (hlen : len < 8) :
    (∀ f ∈ detectHiddenCharacters pCorZ pEmoji t, s ≤ f.index → f.index < s + len →
        f.category ≠ "BinaryEncodingPattern" ∧
        allHiddenCharsGet (unitAt t f.index) ≠ none ∧ f.endIndex = none) ∧
    ((detectHiddenCharacters pCorZ pEmoji t).filter
        (fun g => decide (s ≤ g.index ∧ g.index < s + len))).length ≤ len := by
  have hs_lt : s < t.length := by
    obtain ⟨hpos, hle, _, _, _⟩ := hrun
    omega
  obtain ⟨pre, fuel', l', c', heq, hfuel, hpre⟩ :=
    detect_decompose pCorZ pEmoji t s hs_lt (maximalRun_start_not_pair hrun)
      (crossFree_of_maximal_start hrun)
  have hwalk := walk_short pCorZ pEmoji hrun hlen len (le_refl len) fuel' l' c'
    (by rw [show s + len - len = s by omega]; omega)
  rw [show s + len - len = s by omega] at hwalk
  obtain ⟨wA, wB⟩ := hwalk
  constructor
  · intro f hf hin1 hin2
    rw [heq] at hf
    rcases List.mem_append.mp hf with h1 | h1
    · have := hpre f h1
      omega
    · exact wA f h1 hin1 hin2
  · rw [heq, List.filter_append, List.length_append]
    have hpn : (pre.filter (fun g => decide (s ≤ g.index ∧ g.index < s + len))).length = 0 := by
      rw [List.length_eq_zero]
      rw [List.filter_eq_nil_iff]
      intro a ha
      have := hpre a ha
      simp only [decide_eq_true_eq]
      omega
    omega

/-! ## Proof layer: the suppression heuristics, characterised -/

theorem skipSingle_vs16 {pCorZ pEmoji : Nat → Bool} {t : List Nat} {k : Nat}
    (hcp : codePointAtD t k = 0xFE0F) :
    skipSingleDiagnostic pCorZ pEmoji t k = vs16Skip pCorZ t k := by
  unfold skipSingleDiagnostic
  rw [hcp]
  rfl

theorem skipSingle_zwj {pCorZ pEmoji : Nat → Bool} {t : List Nat} {k : Nat}
    (hcp : codePointAtD t k = 0x200D) :
    skipSingleDiagnostic pCorZ pEmoji t k = zwjSkip pCorZ pEmoji t k := by
  unfold skipSingleDiagnostic
  rw [hcp]
  rfl

theorem skipSingle_other {pCorZ pEmoji : Nat → Bool} {t : List Nat} {k : Nat}
    (h1 : codePointAtD t k ≠ 0xFE0F) (h2 : codePointAtD t k ≠ 0x200D) :
    skipSingleDiagnostic pCorZ pEmoji t k = false := by
  unfold skipSingleDiagnostic
  rw [if_neg (by simpa using h1), if_neg (by simpa using h2)]

/-- With the real-table fact `pCorZ 0 = true`, the VS16 heuristic reduces to
the control-or-separator test on the previous base code point. -/
theorem vs16Skip_eq {pCorZ : Nat → Bool} {t : List Nat} {k : Nat}
    (hCZ0 : pCorZ 0 = true) (hpb : getPreviousBaseCharStartIndex t k ≠ -1) :
    vs16Skip pCorZ t k =
      !(pCorZ (codePointAtD t (getPreviousBaseCharStartIndex t k).toNat)) := by
  unfold vs16Skip
  rw [if_pos (by simpa using hpb)]
  by_cases h0 : codePointAtD t (getPreviousBaseCharStartIndex t k).toNat = 0
  · rw [h0]
    simp [hCZ0]
  · rw [if_pos (by simpa using h0)]

/-- With the real-table fact `pEmoji 0 = false`, `precededByEmojiComponent`
holds exactly when a previous base exists and carries the emoji property. -/
theorem zwjPreceded_iff {pEmoji : Nat → Bool} {t : List Nat} {k : Nat}
    (hE0 : pEmoji 0 = false) :
    zwjPreceded pEmoji t k = true ↔
      (getPreviousBaseCharStartIndex t k ≠ -1 ∧
       pEmoji (codePointAtD t (getPreviousBaseCharStartIndex t k).toNat) = true) := by
  unfold zwjPreceded
  by_cases hpb : getPreviousBaseCharStartIndex t k = -1
  · rw [if_neg (by simpa using hpb)]
    simp [hpb]
  · rw [if_pos (by simpa using hpb)]
    by_cases h0 : codePointAtD t (getPreviousBaseCharStartIndex t k).toNat = 0
    · rw [if_neg (by simpa using h0), h0, hE0]
      simp [hpb]
    · rw [if_pos (by simpa using h0)]
      simp [hpb]

/-- With the real-table fact `pCorZ 0 = true`, `succeededByPotentialComponent`
holds exactly when a next code point exists and is VS16 or not
control-or-separator. -/
theorem zwjSucceeded_iff {pCorZ : Nat → Bool} {t : List Nat} {k : Nat}
    (hCZ0 : pCorZ 0 = true) :
    zwjSucceeded pCorZ t k = true ↔
      (k + 1 < t.length ∧
       (codePointAtD t (k + 1) = 0xFE0F ∨ pCorZ (codePointAtD t (k + 1)) = false)) := by
  unfold zwjSucceeded
  by_cases hin : k + 1 < t.length
  · rw [if_pos hin]
    by_cases h0 : codePointAtD t (k + 1) = 0
    · rw [if_neg (by simpa using h0), h0, hCZ0]
      simp [hin]
    · rw [if_pos (by simpa using h0)]
      simp only [Bool.or_eq_true, beq_iff_eq, Bool.not_eq_true']
      constructor
      · intro h
        exact ⟨hin, h⟩
      · intro h
        exact h.2
  · rw [if_neg hin]
    simp [hin]

theorem zwjSkip_iff {pCorZ pEmoji : Nat → Bool} {t : List Nat} {k : Nat}
    (hCZ0 : pCorZ 0 = true) (hE0 : pEmoji 0 = false) :
    zwjSkip pCorZ pEmoji t k = true ↔
      ((getPreviousBaseCharStartIndex t k ≠ -1 ∧
        pEmoji (codePointAtD t (getPreviousBaseCharStartIndex t k).toNat) = true) ∧
       (k + 1 < t.length ∧
        (codePointAtD t (k + 1) = 0xFE0F ∨ pCorZ (codePointAtD t (k + 1)) = false))) := by
  unfold zwjSkip
  rw [Bool.and_eq_true, zwjPreceded_iff hE0, zwjSucceeded_iff hCZ0]

/-! ## Claim C2 support: every pattern finding lies on one line -/

theorem scanLoopF_pattern_endLine (pCorZ pEmoji : Nat → Bool) (t : List Nat) :
    ∀ fuel i l c f, f ∈ scanLoopF pCorZ pEmoji t fuel i l c →
      f.category = "BinaryEncodingPattern" → f.endLine = some ((f.line : Nat) : Int) := by
  intro fuel
  induction fuel with
  | zero => intro i l c f hf; simp [scanLoopF] at hf
  | succ fuel ih =>
    intro i l c f hf hcat
    by_cases h : i < t.length
    · rcases Nat.lt_or_ge (runLen t i) MIN_PATTERN_LENGTH with hm | hm
      · rw [scanLoopF_single h hm] at hf
        rcases List.mem_append.mp hf with h1 | h1
        · obtain ⟨_, _, _, _, _, _, info, hinfo, hcat', _⟩ := singleCharStep_mem h1
          rw [hcat'] at hcat
          exact absurd hcat (allHiddenCharsGet_category_ne hinfo)
        · exact ih _ _ _ f h1 hcat
      · rw [scanLoopF_pattern h hm] at hf
        rcases List.mem_cons.mp hf with h1 | h1
        · rw [h1, patternFinding_line,
            patternFinding_endLine l c (by have : MIN_PATTERN_LENGTH = 8 := rfl; omega)]
        · exact ih _ _ _ f h1 hcat
    · rw [scanLoopF_stop (by omega)] at hf
      simp at hf

/-! ## The claims -/

/-- Claim C2 counterexample: eight pattern-alphabet code points split only
by a newline.  The claim asserts the run is extended across the newline and
yields one pattern finding with `endLine > startLine`; the code instead
terminates the run at the newline (a newline is not in
`BINARY_ENCODING_CHARS`), so no pattern finding is emitted at all — the
two length-4 fragments fall through to eight single-character findings. -/
theorem claim_C2_counterexample :
    ((detectHiddenCharacters (fun _ => false) (fun _ => false)
        [0x200B, 0x200B, 0x200B, 0x200B, 10, 0x200B, 0x200B, 0x200B, 0x200B]).filter
      (fun f => f.category == "BinaryEncodingPattern")) = [] ∧
    (detectHiddenCharacters (fun _ => false) (fun _ => false)
        [0x200B, 0x200B, 0x200B, 0x200B, 10, 0x200B, 0x200B, 0x200B, 0x200B]).length = 8 := by
  decide

/-- Claim C2 (amended): a newline terminates run extension — the newline
branch inside the run loop is unreachable because a newline is not in the
alphabet — so a sequence of alphabet code points split across lines never
produces a spanning pattern finding; instead every pattern finding lies on
a single line, `endLine = startLine`. -/
theorem claim_C2 (pCorZ pEmoji : Nat → Bool) (t : List Nat) (f : HiddenCharacterInfo)
    (hf : f ∈ detectHiddenCharacters pCorZ pEmoji t)
    (hcat : f.category = "BinaryEncodingPattern") :
    f.endLine = some ((f.line : Nat) : Int) := by
  unfold detectHiddenCharacters at hf
  exact scanLoopF_pattern_endLine pCorZ pEmoji t t.length 0 1 0 f hf hcat

/-- The pattern finding used to witness claim C2. -/
def c2f : HiddenCharacterInfo :=
  { character := "[Binary Pattern (8 chars)]"
    codePoint := -1
    index := 0
    line := 1
    column := 0
    category := "BinaryEncodingPattern"
    message := "Potential binary encoding detected using a sequence of 8 zero-width characters."
    endIndex := some 7
    endLine := some 1
    endColumn := some 7 }

theorem claim_C2_witness :
    c2f ∈ detectHiddenCharacters (fun _ => false) (fun _ => false)
        [0x200B, 0x200B, 0x200B, 0x200B, 0x200B, 0x200B, 0x200B, 0x200B] ∧
    c2f.category = "BinaryEncodingPattern" ∧
    c2f.endLine = some ((c2f.line : Nat) : Int) :=
  ⟨by decide, by decide,
    claim_C2 (fun _ => false) (fun _ => false)
      [0x200B, 0x200B, 0x200B, 0x200B, 0x200B, 0x200B, 0x200B, 0x200B] c2f
      (by decide) (by decide)⟩

/-- Claim C3 evaluation: the registry has no entry at all for U+2028 (line
separator), U+2029 (paragraph separator) or U+180E (Mongolian vowel
separator) — isolated occurrences produce no finding — although the
repository's README and CHANGELOG (v0.0.3) state they are detected; the
four historic zero-width members are present. -/
theorem claim_C3 :
    allHiddenCharsGet 0x2028 = none ∧ allHiddenCharsGet 0x2029 = none ∧
    allHiddenCharsGet 0x180E = none ∧
    detectHiddenCharacters (fun _ => false) (fun _ => false) [0x2028] = [] ∧
    detectHiddenCharacters (fun _ => false) (fun _ => false) [0x2029] = [] ∧
    detectHiddenCharacters (fun _ => false) (fun _ => false) [0x180E] = [] ∧
    allHiddenCharsGet 0x200B = some ⟨ZERO_WIDTH_CATEGORY, ZERO_WIDTH_MESSAGE⟩ ∧
    allHiddenCharsGet 0x200C = some ⟨ZERO_WIDTH_CATEGORY, ZERO_WIDTH_MESSAGE⟩ ∧
    allHiddenCharsGet 0x200D = some ⟨ZERO_WIDTH_CATEGORY, ZERO_WIDTH_MESSAGE⟩ ∧
    allHiddenCharsGet 0xFEFF = some ⟨ZERO_WIDTH_CATEGORY, ZERO_WIDTH_MESSAGE⟩ := by
  decide

/-- Claim C7: for every input and every finding returned by the scan, the
`endIndex`, `endLine` and `endColumn` fields are present exactly when the
finding's category is `BinaryEncodingPattern`, and absent for every
single-character finding. -/
theorem claim_C7 (pCorZ pEmoji : Nat → Bool) (t : List Nat) (f : HiddenCharacterInfo)
    (hf : f ∈ detectHiddenCharacters pCorZ pEmoji t) :
    (f.category = "BinaryEncodingPattern" ↔ f.endIndex.isSome = true) ∧
    (f.category = "BinaryEncodingPattern" ↔ f.endLine.isSome = true) ∧
    (f.category = "BinaryEncodingPattern" ↔ f.endColumn.isSome = true) := by
  unfold detectHiddenCharacters at hf
  exact scanLoopF_endFields pCorZ pEmoji t t.length 0 1 0 f hf

/-- The single-character finding used to witness claim C7. -/
def c7f : HiddenCharacterInfo :=
  { character := "U+200B"
    codePoint := 0x200B
    index := 0
    line := 1
    column := 0
    category := ZERO_WIDTH_CATEGORY
    message := ZERO_WIDTH_MESSAGE
    endIndex := none
    endLine := none
    endColumn := none }

theorem claim_C7_witness :
    c7f ∈ detectHiddenCharacters (fun _ => false) (fun _ => false) [0x200B] ∧
    ((c7f.category = "BinaryEncodingPattern" ↔ c7f.endIndex.isSome = true) ∧
     (c7f.category = "BinaryEncodingPattern" ↔ c7f.endLine.isSome = true) ∧
     (c7f.category = "BinaryEncodingPattern" ↔ c7f.endColumn.isSome = true)) :=
  ⟨by decide, claim_C7 (fun _ => false) (fun _ => false) [0x200B] c7f (by decide)⟩

/-- Claim C8: for every input, the list returned by the scan is sorted by
`startIndex`, in fact strictly ascending. -/
theorem claim_C8 (pCorZ pEmoji : Nat → Bool) (t : List Nat) :
    List.Pairwise (fun a b => a.index < b.index)
      (detectHiddenCharacters pCorZ pEmoji t) := by
  unfold detectHiddenCharacters
  exact scanLoopF_pairwise pCorZ pEmoji t t.length 0 1 0

/-- Claim C9: the scan is total — fuel `t.length` is enough (any larger
fuel computes the same list, i.e. the loop terminates within `t.length`
iterations since the cursor strictly advances), it emits at most one
finding per addressing unit, and the empty input yields the empty list. -/
theorem claim_C9 (pCorZ pEmoji : Nat → Bool) (t : List Nat) (fuel : Nat)
    (hfuel : t.length ≤ fuel) :
    scanLoopF pCorZ pEmoji t fuel 0 1 0 = detectHiddenCharacters pCorZ pEmoji t ∧
    (detectHiddenCharacters pCorZ pEmoji t).length ≤ t.length ∧
    detectHiddenCharacters pCorZ pEmoji [] = [] := by
  refine ⟨?_, ?_, rfl⟩
  · unfold detectHiddenCharacters
    exact scanLoopF_fuel_irrel pCorZ pEmoji t fuel t.length 0 1 0 (by omega) (by omega)
  · unfold detectHiddenCharacters
    have := scanLoopF_length_le pCorZ pEmoji t t.length 0 1 0
    omega

theorem claim_C9_witness :
    ([0xD800] : List Nat).length ≤ 5 ∧
    (scanLoopF (fun _ => false) (fun _ => false) [0xD800] 5 0 1 0 =
       detectHiddenCharacters (fun _ => false) (fun _ => false) [0xD800] ∧
     (detectHiddenCharacters (fun _ => false) (fun _ => false) [0xD800]).length ≤
       ([0xD800] : List Nat).length ∧
     detectHiddenCharacters (fun _ => false) (fun _ => false) [] = []) :=
  ⟨by decide, claim_C9 (fun _ => false) (fun _ => false) [0xD800] 5 (by decide)⟩

/-- Claim C1: a maximal alphabet run of length ≥ 8 produces exactly one
`BinaryEncodingPattern` finding — the only finding whose index lies in the
run — starting at the run's start and ending at its last unit; a maximal
run of length < 8 produces zero pattern findings and at most `len`
single-character findings, each sitting on a registry member. -/
theorem claim_C1 (pCorZ pEmoji : Nat → Bool) (t : List Nat) (s len : Nat)
    (hrun : maximalRun t s len) :
    (8 ≤ len →
      ∃ f, (detectHiddenCharacters pCorZ pEmoji t).filter
          (fun g => decide (s ≤ g.index ∧ g.index < s + len)) = [f] ∧
        f.category = "BinaryEncodingPattern" ∧ f.index = s ∧
        f.endIndex = some ((s + len - 1 : Nat) : Int)) ∧
    (len < 8 →
      (∀ f ∈ detectHiddenCharacters pCorZ pEmoji t, s ≤ f.index → f.index < s + len →
        f.category ≠ "BinaryEncodingPattern" ∧ f.endIndex = none ∧
        allHiddenCharsGet (unitAt t f.index) ≠ none) ∧
      ((detectHiddenCharacters pCorZ pEmoji t).filter
          (fun g => decide (s ≤ g.index ∧ g.index < s + len))).length ≤ len) := by
  constructor
  · intro h8
    have hs_lt : s < t.length := by
      obtain ⟨hpos, hle, _, _, _⟩ := hrun
      omega
    obtain ⟨pre, fuel', l', c', heq, hfuel, hpre⟩ :=
      detect_decompose pCorZ pEmoji t s hs_lt (maximalRun_start_not_pair hrun)
        (crossFree_of_maximal_start hrun)
    have hrlen : runLen t s = len := by
      have hg := runLen_at_maximal hrun (le_refl s) (by omega)
      rw [hg]
      omega
    cases fuel' with
    | zero => omega
    | succ fu =>
      have hm : MIN_PATTERN_LENGTH ≤ runLen t s := by
        rw [hrlen]
        have h' : MIN_PATTERN_LENGTH = 8 := rfl
        omega
      rw [heq, scanLoopF_pattern hs_lt hm]
      refine ⟨patternFinding t s l' c', ?_, patternFinding_category t s l' c',
        patternFinding_index t s l' c', ?_⟩
      · rw [List.filter_append]
        have hpn : pre.filter (fun g => decide (s ≤ g.index ∧ g.index < s + len)) = [] := by
          rw [List.filter_eq_nil_iff]
          intro a ha
          have := hpre a ha
          simp only [decide_eq_true_eq]
          omega
        rw [hpn, List.nil_append, List.filter_cons]
        have hp : (decide (s ≤ (patternFinding t s l' c').index ∧
            (patternFinding t s l' c').index < s + len)) = true := by
          rw [patternFinding_index]
          simp only [decide_eq_true_eq]
          obtain ⟨hpos, _, _, _, _⟩ := hrun
          omega
        rw [if_pos hp]
        have hrest : (scanLoopF pCorZ pEmoji t fu (s + runLen t s) l'
            (lastNLStart t (s + runLen t s - 1))).filter
            (fun g => decide (s ≤ g.index ∧ g.index < s + len)) = [] := by
          rw [List.filter_eq_nil_iff]
          intro a ha
          have := scanLoopF_index_ge pCorZ pEmoji t fu _ _ _ a ha
          rw [hrlen] at this
          simp only [decide_eq_true_eq]
          omega
        rw [hrest]
      · rw [patternFinding_endIndex l' c' (by rw [hrlen]; omega), hrlen]
  · intro hlt
    obtain ⟨hA, hB⟩ := detect_shortRun pCorZ pEmoji hrun hlt
    refine ⟨?_, hB⟩
    intro f hf hin1 hin2
    obtain ⟨x, y, z⟩ := hA f hf hin1 hin2
    exact ⟨x, z, y⟩

/-- The eight-unit zero-width-space run used to witness claim C1. -/
def t8 : List Nat := [0x200B, 0x200B, 0x200B, 0x200B, 0x200B, 0x200B, 0x200B, 0x200B]

theorem claim_C1_witness :
    maximalRun t8 0 8 ∧
    ((8 ≤ 8 →
      ∃ f, (detectHiddenCharacters (fun _ => false) (fun _ => false) t8).filter
          (fun g => decide (0 ≤ g.index ∧ g.index < 0 + 8)) = [f] ∧
        f.category = "BinaryEncodingPattern" ∧ f.index = 0 ∧
        f.endIndex = some ((0 + 8 - 1 : Nat) : Int)) ∧
     (8 < 8 →
      (∀ f ∈ detectHiddenCharacters (fun _ => false) (fun _ => false) t8,
          0 ≤ f.index → f.index < 0 + 8 →
        f.category ≠ "BinaryEncodingPattern" ∧ f.endIndex = none ∧
        allHiddenCharsGet (unitAt t8 f.index) ≠ none) ∧
      ((detectHiddenCharacters (fun _ => false) (fun _ => false) t8).filter
          (fun g => decide (0 ≤ g.index ∧ g.index < 0 + 8))).length ≤ 8)) :=
  ⟨by decide, claim_C1 (fun _ => false) (fun _ => false) t8 0 8 (by decide)⟩

/-- Claim C10: U+2062 and U+2064 belong to the binary-pattern alphabet but
not to the category registry, so an occurrence not absorbed into a
qualifying run (any member of a maximal run shorter than 8, in particular
an isolated occurrence) produces no finding at all. -/
theorem claim_C10 :
    (isBinaryEncodingChar 0x2062 = true ∧ isBinaryEncodingChar 0x2064 = true ∧
     allHiddenCharsGet 0x2062 = none ∧ allHiddenCharsGet 0x2064 = none) ∧
    ∀ (pCorZ pEmoji : Nat → Bool) (t : List Nat) (s len k : Nat),
      maximalRun t s len → len < 8 → s ≤ k → k < s + len →
      (unitAt t k = 0x2062 ∨ unitAt t k = 0x2064) →
      ∀ f ∈ detectHiddenCharacters pCorZ pEmoji t, f.index ≠ k := by
  refine ⟨⟨rfl, rfl, rfl, rfl⟩, ?_⟩
  intro pCorZ pEmoji t s len k hrun hlen h1 h2 hu f hf hidx
  obtain ⟨hA, _⟩ := detect_shortRun pCorZ pEmoji hrun hlen
  obtain ⟨_, hlook, _⟩ := hA f hf (by omega) (by omega)
  rw [hidx] at hlook
  rcases hu with hu | hu <;> rw [hu] at hlook <;> exact hlook rfl

theorem claim_C10_witness :
    (maximalRun [65, 0x2062, 66] 1 1 ∧ (1 : Nat) < 8 ∧ (1 : Nat) ≤ 1 ∧
     (1 : Nat) < 1 + 1 ∧
     (unitAt [65, 0x2062, 66] 1 = 0x2062 ∨ unitAt [65, 0x2062, 66] 1 = 0x2064)) ∧
    ∀ f ∈ detectHiddenCharacters (fun _ => false) (fun _ => false) [65, 0x2062, 66],
      f.index ≠ 1 :=
  ⟨⟨by decide, by decide, by decide, by decide, by decide⟩,
   claim_C10.2 (fun _ => false) (fun _ => false) [65, 0x2062, 66] 1 1 1
     (by decide) (by decide) (by decide) (by decide) (by decide)⟩

/-- Claim C6: a supplementary-plane registry member encoded as a surrogate
pair at offset `k` yields a finding carrying the full scalar value with
`startIndex = k`, and the scanner consumes both units: no finding is ever
emitted for the low-surrogate unit at `k + 1`. -/
theorem claim_C6 (pCorZ pEmoji : Nat → Bool) (t : List Nat) (k : Nat)
    (info : HiddenInfo) (hk1 : k + 1 < t.length)
    (hh : isHighSurrogate (unitAt t k) = true)
    (hl : isLowSurrogate (unitAt t (k + 1)) = true)
    (hlook : allHiddenCharsGet (codePointAtD t k) = some info) :
    (∃ f ∈ detectHiddenCharacters pCorZ pEmoji t,
        f.index = k ∧ f.codePoint = (codePointAtD t k : Int) ∧
        f.category = info.category) ∧
    (∀ f ∈ detectHiddenCharacters pCorZ pEmoji t, f.index ≠ k + 1) := by
  have hk : k < t.length := by omega
  have hna : isBinaryEncodingChar (unitAt t k) = false := not_alpha_high hh
  have hcp_pair : ¬(isLowSurrogate (unitAt t k) = true ∧ 0 < k ∧
      isHighSurrogate (unitAt t (k - 1)) = true) := by
    rintro ⟨hlow, _, _⟩
    unfold isHighSurrogate at hh
    unfold isLowSurrogate at hlow
    simp only [Bool.and_eq_true, decide_eq_true_eq] at hh hlow
    omega
  obtain ⟨pre, fuel', l', c', heq, hfuel, hpre⟩ :=
    detect_decompose pCorZ pEmoji t k hk hcp_pair (crossFree_of_nonalpha hna)
  have hrl : runLen t k = 0 := by
    apply runLen_zero
    rintro ⟨_, ha⟩
    rw [hna] at ha
    exact absurd ha (by simp)
  cases fuel' with
  | zero => omega
  | succ fu =>
    have hm : runLen t k < MIN_PATTERN_LENGTH := by
      rw [hrl]
      have h' : MIN_PATTERN_LENGTH = 8 := rfl
      omega
    have hbig : 0xFFFF < codePointAtD t k := (codePointAtD_big_iff t k).mpr ⟨hh, hl⟩
    have hskip : skipSingleDiagnostic pCorZ pEmoji t k = false :=
      skipSingle_other (by omega) (by omega)
    rw [heq, scanLoopF_single hk hm, if_pos hbig, singleCharStep_emit hlook hskip]
    constructor
    · refine ⟨{ character := "U+" ++ padStart4 (natToHex (codePointAtD t k)),
                codePoint := (codePointAtD t k : Int), index := k, line := l',
                column := (k : Int) - (c' : Int), category := info.category,
                message := info.message, endIndex := none, endLine := none,
                endColumn := none }, ?_, rfl, rfl, rfl⟩
      exact List.mem_append.mpr (Or.inr (List.mem_append.mpr
        (Or.inl (List.mem_singleton.mpr rfl))))
    · intro f hf hidx
      rcases List.mem_append.mp hf with hm1 | hm1
      · have := hpre f hm1
        omega
      · rcases List.mem_append.mp hm1 with hm2 | hm2
        · rw [List.mem_singleton] at hm2
          subst hm2
          simp at hidx
        · have := scanLoopF_index_ge pCorZ pEmoji t fu _ _ _ f hm2
          omega

theorem claim_C6_witness :
    (0 : Nat) + 1 < ([0xDB40, 0xDD00] : List Nat).length ∧
    isHighSurrogate (unitAt [0xDB40, 0xDD00] 0) = true ∧
    isLowSurrogate (unitAt [0xDB40, 0xDD00] (0 + 1)) = true ∧
    allHiddenCharsGet (codePointAtD [0xDB40, 0xDD00] 0) =
      some ⟨VARIATION_SELECTOR_CATEGORY, VARIATION_SELECTOR_MESSAGE⟩ ∧
    ((∃ f ∈ detectHiddenCharacters (fun _ => false) (fun _ => false) [0xDB40, 0xDD00],
        f.index = 0 ∧ f.codePoint = (codePointAtD [0xDB40, 0xDD00] 0 : Int) ∧
        f.category =
          (⟨VARIATION_SELECTOR_CATEGORY, VARIATION_SELECTOR_MESSAGE⟩ : HiddenInfo).category) ∧
     (∀ f ∈ detectHiddenCharacters (fun _ => false) (fun _ => false) [0xDB40, 0xDD00],
        f.index ≠ 0 + 1)) :=
  ⟨by decide, by decide, by decide, by decide,
   claim_C6 (fun _ => false) (fun _ => false) [0xDB40, 0xDD00] 0
     ⟨VARIATION_SELECTOR_CATEGORY, VARIATION_SELECTOR_MESSAGE⟩
     (by decide) (by decide) (by decide) (by decide)⟩

/-- Claim C4: when a VS16 is classified and a previous base code point
exists (found by skipping one preceding VS16 and surrogate continuation),
the finding is suppressed exactly when that code point is not a
control-or-separator character; `pCorZ 0 = true` records that U+0000 is a
control character in the real Unicode tables. -/
theorem claim_C4 (pCorZ pEmoji : Nat → Bool) (t : List Nat) (k : Nat)
    (hCZ0 : pCorZ 0 = true) (hk : k < t.length) (hu : unitAt t k = 0xFE0F)
    (hpb : getPreviousBaseCharStartIndex t k ≠ -1) :
    (pCorZ (codePointAtD t (getPreviousBaseCharStartIndex t k).toNat) = false →
       ∀ f ∈ detectHiddenCharacters pCorZ pEmoji t, f.index ≠ k) ∧
    (pCorZ (codePointAtD t (getPreviousBaseCharStartIndex t k).toNat) = true →
       ∃ f ∈ detectHiddenCharacters pCorZ pEmoji t,
         f.index = k ∧ f.category = VARIATION_SELECTOR_CATEGORY) := by
  have hcpk : codePointAtD t k = 0xFE0F := by
    rw [codePointAtD_of_not_high (by rw [hu]; rfl), hu]
  have hna : isBinaryEncodingChar (unitAt t k) = false := by rw [hu]; rfl
  have hcp_pair : ¬(isLowSurrogate (unitAt t k) = true ∧ 0 < k ∧
      isHighSurrogate (unitAt t (k - 1)) = true) := by
    rintro ⟨hlow, _, _⟩
    rw [hu] at hlow
    exact absurd hlow (by decide)
  obtain ⟨pre, fuel', l', c', heq, hfuel, hpre⟩ :=
    detect_decompose pCorZ pEmoji t k hk hcp_pair (crossFree_of_nonalpha hna)
  have hrl : runLen t k = 0 := by
    apply runLen_zero
    rintro ⟨_, ha⟩
    rw [hna] at ha
    exact absurd ha (by simp)
  cases fuel' with
  | zero => omega
  | succ fu =>
    have hm : runLen t k < MIN_PATTERN_LENGTH := by
      rw [hrl]
      have h' : MIN_PATTERN_LENGTH = 8 := rfl
      omega
    have hlook : allHiddenCharsGet (codePointAtD t k) =
        some ⟨VARIATION_SELECTOR_CATEGORY, VARIATION_SELECTOR_MESSAGE⟩ := by
      rw [hcpk]
      rfl
    have hskipeq : skipSingleDiagnostic pCorZ pEmoji t k =
        !(pCorZ (codePointAtD t (getPreviousBaseCharStartIndex t k).toNat)) := by
      rw [skipSingle_vs16 hcpk, vs16Skip_eq hCZ0 hpb]
    have hsmall : ¬ 0xFFFF < codePointAtD t k := by rw [hcpk]; omega
    rw [heq, scanLoopF_single hk hm, if_neg hsmall]
    constructor
    · intro hfalse f hf hidx
      have hskip : skipSingleDiagnostic pCorZ pEmoji t k = true := by
        rw [hskipeq, hfalse]
        rfl
      rw [singleCharStep_skip hskip] at hf
      rcases List.mem_append.mp hf with hm1 | hm1
      · have := hpre f hm1
        omega
      · rcases List.mem_append.mp hm1 with hm2 | hm2
        · simp at hm2
        · have := scanLoopF_index_ge pCorZ pEmoji t fu _ _ _ f hm2
          omega
    · intro htrue
      have hskip : skipSingleDiagnostic pCorZ pEmoji t k = false := by
        rw [hskipeq, htrue]
        rfl
      rw [singleCharStep_emit hlook hskip]
      refine ⟨{ character := "U+" ++ padStart4 (natToHex (codePointAtD t k)),
                codePoint := (codePointAtD t k : Int), index := k, line := l',
                column := (k : Int) - (c' : Int),
                category := VARIATION_SELECTOR_CATEGORY,
                message := VARIATION_SELECTOR_MESSAGE, endIndex := none,
                endLine := none, endColumn := none }, ?_, rfl, rfl⟩
      exact List.mem_append.mpr (Or.inr (List.mem_append.mpr
        (Or.inl (List.mem_singleton.mpr rfl))))

theorem claim_C4_witness :
    (fun c => decide (c < 32)) 0 = true ∧
    (1 : Nat) < ([65, 0xFE0F] : List Nat).length ∧
    unitAt [65, 0xFE0F] 1 = 0xFE0F ∧
    getPreviousBaseCharStartIndex [65, 0xFE0F] 1 ≠ -1 ∧
    (((fun c => decide (c < 32))
        (codePointAtD [65, 0xFE0F] (getPreviousBaseCharStartIndex [65, 0xFE0F] 1).toNat) = false →
       ∀ f ∈ detectHiddenCharacters (fun c => decide (c < 32)) (fun _ => false) [65, 0xFE0F],
         f.index ≠ 1) ∧
     ((fun c => decide (c < 32))
        (codePointAtD [65, 0xFE0F] (getPreviousBaseCharStartIndex [65, 0xFE0F] 1).toNat) = true →
       ∃ f ∈ detectHiddenCharacters (fun c => decide (c < 32)) (fun _ => false) [65, 0xFE0F],
         f.index = 1 ∧ f.category = VARIATION_SELECTOR_CATEGORY)) :=
  ⟨by decide, by decide, by decide, by decide,
   claim_C4 (fun c => decide (c < 32)) (fun _ => false) [65, 0xFE0F] 1
     (by decide) (by decide) (by decide) (by decide)⟩

/-- Claim C5: a ZWJ that reaches single-character classification (a member
of a maximal alphabet run shorter than 8) is suppressed exactly when both
(a) the previous base code point carries the emoji property and (b) the
next code point is VS16 or not control-or-separator; a ZWJ adjacent to
plain text produces a Zero-Width finding.  `pCorZ 0 = true` and
`pEmoji 0 = false` record the real Unicode-table facts about U+0000. -/
theorem claim_C5 (pCorZ pEmoji : Nat → Bool) (t : List Nat) (s len k : Nat)
    (hCZ0 : pCorZ 0 = true) (hE0 : pEmoji 0 = false)
    (hrun : maximalRun t s len) (hlen : len < 8) (h1 : s ≤ k) (h2 : k < s + len)
    (hu : unitAt t k = 0x200D) :
    (((getPreviousBaseCharStartIndex t k ≠ -1 ∧
       pEmoji (codePointAtD t (getPreviousBaseCharStartIndex t k).toNat) = true) ∧
      (k + 1 < t.length ∧
       (codePointAtD t (k + 1) = 0xFE0F ∨ pCorZ (codePointAtD t (k + 1)) = false))) →
       ∀ f ∈ detectHiddenCharacters pCorZ pEmoji t, f.index ≠ k) ∧
    (¬((getPreviousBaseCharStartIndex t k ≠ -1 ∧
        pEmoji (codePointAtD t (getPreviousBaseCharStartIndex t k).toNat) = true) ∧
       (k + 1 < t.length ∧
        (codePointAtD t (k + 1) = 0xFE0F ∨ pCorZ (codePointAtD t (k + 1)) = false))) →
       ∃ f ∈ detectHiddenCharacters pCorZ pEmoji t,
         f.index = k ∧ f.category = ZERO_WIDTH_CATEGORY) := by
  have hk : k < t.length := by
    obtain ⟨_, hle, _, _, _⟩ := hrun
    omega
  have hcpk : codePointAtD t k = 0x200D := by
    rw [codePointAtD_of_not_high (by rw [hu]; rfl), hu]
  have hcp_pair : ¬(isLowSurrogate (unitAt t k) = true ∧ 0 < k ∧
      isHighSurrogate (unitAt t (k - 1)) = true) := by
    rintro ⟨hlow, _, _⟩
    rw [hu] at hlow
    exact absurd hlow (by decide)
  obtain ⟨pre, fuel', l', c', heq, hfuel, hpre⟩ :=
    detect_decompose pCorZ pEmoji t k hk hcp_pair
      (crossFree_of_shortRun hrun hlen h1 h2)
  have hrl : runLen t k = s + len - k := runLen_at_maximal hrun (by omega) (by omega)
  have hm : runLen t k < MIN_PATTERN_LENGTH := by
    rw [hrl]
    have h' : MIN_PATTERN_LENGTH = 8 := rfl
    omega
  cases fuel' with
  | zero => omega
  | succ fu =>
    have hlook : allHiddenCharsGet (codePointAtD t k) =
        some ⟨ZERO_WIDTH_CATEGORY, ZERO_WIDTH_MESSAGE⟩ := by
      rw [hcpk]
      rfl
    have hskipeq : skipSingleDiagnostic pCorZ pEmoji t k = zwjSkip pCorZ pEmoji t k :=
      skipSingle_zwj hcpk
    have hsmall : ¬ 0xFFFF < codePointAtD t k := by rw [hcpk]; omega
    rw [heq, scanLoopF_single hk hm, if_neg hsmall]
    constructor
    · intro hcond f hf hidx
      have hskip : skipSingleDiagnostic pCorZ pEmoji t k = true := by
        rw [hskipeq]
        exact (zwjSkip_iff hCZ0 hE0).mpr hcond
      rw [singleCharStep_skip hskip] at hf
      rcases List.mem_append.mp hf with hm1 | hm1
      · have := hpre f hm1
        omega
      · rcases List.mem_append.mp hm1 with hm2 | hm2
        · simp at hm2
        · have := scanLoopF_index_ge pCorZ pEmoji t fu _ _ _ f hm2
          omega
    · intro hcond
      have hskip : skipSingleDiagnostic pCorZ pEmoji t k = false := by
        rw [hskipeq]
        cases hz : zwjSkip pCorZ pEmoji t k with
        | false => rfl
        | true => exact absurd ((zwjSkip_iff hCZ0 hE0).mp hz) hcond
      rw [singleCharStep_emit hlook hskip]
      refine ⟨{ character := "U+" ++ padStart4 (natToHex (codePointAtD t k)),
                codePoint := (codePointAtD t k : Int), index := k, line := l',
                column := (k : Int) - (c' : Int), category := ZERO_WIDTH_CATEGORY,
                message := ZERO_WIDTH_MESSAGE, endIndex := none, endLine := none,
                endColumn := none }, ?_, rfl, rfl⟩
      exact List.mem_append.mpr (Or.inr (List.mem_append.mpr
        (Or.inl (List.mem_singleton.mpr rfl))))

theorem claim_C5_witness :
    ((fun c => decide (c < 32)) 0 = true ∧ (fun _ => false) 0 = false ∧
     maximalRun [97, 0x200D, 98] 1 1 ∧ (1 : Nat) < 8 ∧ (1 : Nat) ≤ 1 ∧
     (1 : Nat) < 1 + 1 ∧ unitAt [97, 0x200D, 98] 1 = 0x200D) ∧
    ((((getPreviousBaseCharStartIndex [97, 0x200D, 98] 1 ≠ -1 ∧
        (fun _ => false)
          (codePointAtD [97, 0x200D, 98]
            (getPreviousBaseCharStartIndex [97, 0x200D, 98] 1).toNat) = true) ∧
       ((1 : Nat) + 1 < ([97, 0x200D, 98] : List Nat).length ∧
        (codePointAtD [97, 0x200D, 98] (1 + 1) = 0xFE0F ∨
         (fun c => decide (c < 32)) (codePointAtD [97, 0x200D, 98] (1 + 1)) = false))) →
       ∀ f ∈ detectHiddenCharacters (fun c => decide (c < 32)) (fun _ => false)
           [97, 0x200D, 98], f.index ≠ 1) ∧
     (¬((getPreviousBaseCharStartIndex [97, 0x200D, 98] 1 ≠ -1 ∧
         (fun _ => false)
           (codePointAtD [97, 0x200D, 98]
             (getPreviousBaseCharStartIndex [97, 0x200D, 98] 1).toNat) = true) ∧
        ((1 : Nat) + 1 < ([97, 0x200D, 98] : List Nat).length ∧
         (codePointAtD [97, 0x200D, 98] (1 + 1) = 0xFE0F ∨
          (fun c => decide (c < 32)) (codePointAtD [97, 0x200D, 98] (1 + 1)) = false))) →
       ∃ f ∈ detectHiddenCharacters (fun c => decide (c < 32)) (fun _ => false)
           [97, 0x200D, 98], f.index = 1 ∧ f.category = ZERO_WIDTH_CATEGORY)) :=
  ⟨⟨by decide, by decide, by decide, by decide, by decide, by decide, by decide⟩,
   claim_C5 (fun c => decide (c < 32)) (fun _ => false) [97, 0x200D, 98] 1 1 1
     (by decide) (by decide) (by decide) (by decide) (by decide) (by decide) (by decide)⟩
